import Mathlib

/-!
Verification development for a minimal UTXO ledger indexer.

The source under verification is a small TypeScript service
(`src/index.ts`, `src/utils.ts`) exposing three operations over a
relational store:

* `POST /blocks`  — validate and atomically commit one block
  (`processBlock` inside a BEGIN/COMMIT/ROLLBACK unit),
* `POST /rollback` — atomically revert state to a target height
  (`rollbackToHeight`),
* `GET /balance/:address` — sum of unspent outputs for an address.

This file gives a shallow embedding of that code: the two database tables
become Lean lists, every SQL statement becomes the corresponding pure list
transformation, JavaScript numbers become `ℚ` (with the `NUMERIC(20,8)`
storage rounding and the `toFixed(8)` comparisons made explicit through
`round8`), and the block digest (`calculateBlockHash` in `utils.ts`) is a
full executable SHA-256 over the UTF-8 bytes of the hashed string.
Theorems at the end settle the specification's claims about this code.
-/

/-! ## Data model (`src/utils.ts`)

`Output`, `Input`, `Transaction`, `Block` mirror the exported TypeScript
types.  Monetary values are modelled as `ℚ`: JavaScript numbers are binary
floats, but every claim-relevant comparison in the source goes through
`toFixed(8)` / `NUMERIC(20,8)`, i.e. decimal rounding, which `round8`
below captures exactly on `ℚ`.  Block heights are `Int` because a
submitted height (and a rollback target) is an arbitrary JSON number that
the code compares with `===` / `<` / `>=`. -/

structure Output where
  address : String
  value : ℚ
deriving DecidableEq, Repr

structure Input where
  txId : String
  index : Nat
deriving DecidableEq, Repr

structure Transaction where
  id : String
  inputs : List Input
  outputs : List Output
deriving DecidableEq, Repr

structure Block where
  id : String
  height : Int
  transactions : List Transaction
deriving DecidableEq, Repr

/-- `parseValue` (`src/utils.ts` lines 17–21): `Number(value)`, with `NaN`
mapped to `0`.  In the embedding values are already rationals (the pg
driver hands `NUMERIC` back as a decimal string and `Number` reads it
back), so the conversion is the identity; the `NaN => 0` branch is
unreachable for the rational inputs the model feeds it. -/
def parseValue (value : ℚ) : ℚ := value

/-! The library's `Rat.add`/`Rat.mul` are `@[irreducible]`, which would
keep concrete runs of the model from evaluating inside proofs, so the
model computes with the following executable equivalents built on
`mkRat`; `qAdd_eq`/`qMul_eq`/`qSum_eq` below identify them with the
ordinary field operations for the algebraic proofs. -/

/-- Executable rational addition (provably equal to `+`). -/
def qAdd (a b : ℚ) : ℚ := mkRat (a.num * (b.den : Int) + b.num * (a.den : Int)) (a.den * b.den)

/-- Executable rational multiplication (provably equal to `*`). -/
def qMul (a b : ℚ) : ℚ := mkRat (a.num * b.num) (a.den * b.den)

/-- Executable rational list sum (provably equal to `List.sum`). -/
def qSum (l : List ℚ) : ℚ := l.foldr qAdd 0

theorem qAdd_eq (a b : ℚ) : qAdd a b = a + b := by
  unfold qAdd
  rw [Rat.mkRat_eq_div]
  push_cast
  conv_rhs => rw [← Rat.num_div_den a, ← Rat.num_div_den b]
  have ha : (a.den : ℚ) ≠ 0 := by exact_mod_cast a.den_nz
  have hb : (b.den : ℚ) ≠ 0 := by exact_mod_cast b.den_nz
  field_simp

theorem qMul_eq (a b : ℚ) : qMul a b = a * b := by
  unfold qMul
  rw [Rat.mkRat_eq_div]
  push_cast
  conv_rhs => rw [← Rat.num_div_den a, ← Rat.num_div_den b]
  have ha : (a.den : ℚ) ≠ 0 := by exact_mod_cast a.den_nz
  have hb : (b.den : ℚ) ≠ 0 := by exact_mod_cast b.den_nz
  field_simp

theorem qSum_eq (l : List ℚ) : qSum l = l.sum := by
  induction l with
  | nil => rfl
  | cons x l ih => rw [qSum, List.foldr_cons, ← qSum, qAdd_eq, ih, List.sum_cons]

/-- Floor of a rational as an integer, by floor division of numerator by
denominator (the denominator of a `ℚ` is positive, so this is the usual
floor). -/
def ratFloor (q : ℚ) : Int := Int.fdiv q.num (q.den : Int)

/-- Decimal rounding to 8 fractional digits — the effect of JavaScript's
`Number(x.toFixed(8))` on the conservation totals (`index.ts` line 82) and
of the `NUMERIC(20, 8)` column type on stored values.  Round-half-up
(`⌊x·10⁸ + 1/2⌋ / 10⁸`) on `ℚ`, which agrees with both on every non-tie
(and non-negative tie) input. -/
def round8 (q : ℚ) : ℚ :=
  mkRat (ratFloor (qAdd (qMul q 100000000) (mkRat 1 2))) 100000000

/-! ## SHA-256 (`calculateBlockHash`, `src/utils.ts` lines 8–15)

The source hashes `height.toString() + transactionIds.join('')` with
WebCrypto SHA-256 and hex-encodes the digest lowercase.  Below is a plain
executable SHA-256 over byte lists (`Nat`s below 256), with 32-bit words
as `Nat` reduced `% 2^32`. -/

/-- One UTF-8 encoded character (the effect of `TextEncoder` per code
point). -/
def charUtf8 (c : Char) : List Nat :=
  let n := c.toNat
  if n < 128 then [n]
  else if n < 2048 then [192 + n / 64, 128 + n % 64]
  else if n < 65536 then [224 + n / 4096, 128 + (n / 64) % 64, 128 + n % 64]
  else [240 + n / 262144, 128 + (n / 4096) % 64, 128 + (n / 64) % 64, 128 + n % 64]

/-- UTF-8 bytes of a string (`new TextEncoder().encode(data)`). -/
def utf8Encode (s : String) : List Nat := s.data.flatMap charUtf8

/-- 32-bit right rotation. -/
def rotr32 (n x : Nat) : Nat := ((x >>> n) ||| (x <<< (32 - n))) % 4294967296

/-- 32-bit wrapping addition. -/
def add32 (a b : Nat) : Nat := (a + b) % 4294967296

def sigmaSmall0 (x : Nat) : Nat := (rotr32 7 x) ^^^ (rotr32 18 x) ^^^ (x >>> 3)

def sigmaSmall1 (x : Nat) : Nat := (rotr32 17 x) ^^^ (rotr32 19 x) ^^^ (x >>> 10)

def sigmaBig0 (x : Nat) : Nat := (rotr32 2 x) ^^^ (rotr32 13 x) ^^^ (rotr32 22 x)

def sigmaBig1 (x : Nat) : Nat := (rotr32 6 x) ^^^ (rotr32 11 x) ^^^ (rotr32 25 x)

/-- The 64 SHA-256 round constants. -/
def sha256K : List Nat :=
  [1116352408, 1899447441, 3049323471, 3921009573, 961987163,
   1508970993, 2453635748, 2870763221, 3624381080, 310598401,
   607225278, 1426881987, 1925078388, 2162078206, 2614888103,
   3248222580, 3835390401, 4022224774, 264347078, 604807628,
   770255983, 1249150122, 1555081692, 1996064986, 2554220882,
   2821834349, 2952996808, 3210313671, 3336571891, 3584528711,
   113926993, 338241895, 666307205, 773529912, 1294757372,
   1396182291, 1695183700, 1986661051, 2177026350, 2456956037,
   2730485921, 2820302411, 3259730800, 3345764771, 3516065817,
   3600352804, 4094571909, 275423344, 430227734, 506948616,
   659060556, 883997877, 958139571, 1322822218, 1537002063,
   1747873779, 1955562222, 2024104815, 2227730452, 2361852424,
   2428436474, 2756734187, 3204031479, 3329325298]

/-- The initial SHA-256 hash state. -/
def sha256H0 : List Nat :=
  [1779033703, 3144134277, 1013904242, 2773480762, 1359893119,
   2600822924, 528734635, 1541459225]

/-- Big-endian bytes of `x`, `n` bytes wide. -/
def toBytesBE : Nat → Nat → List Nat
  | 0, _ => []
  | n + 1, x => toBytesBE n (x / 256) ++ [x % 256]

/-- Group a byte list into big-endian 32-bit words. -/
def bytesToWords : List Nat → List Nat
  | a :: b :: c :: d :: rest => (a * 16777216 + b * 65536 + c * 256 + d) :: bytesToWords rest
  | _ => []

/-- Iterate a function `n` times. -/
def iterateFn (f : α → α) : Nat → α → α
  | 0, a => a
  | n + 1, a => iterateFn f n (f a)

/-- Extend the message schedule by one word. -/
def scheduleStep (w : List Nat) : List Nat :=
  let n := w.length
  w ++ [add32 (add32 (sigmaSmall1 (w.getD (n - 2) 0)) (w.getD (n - 7) 0))
              (add32 (sigmaSmall0 (w.getD (n - 15) 0)) (w.getD (n - 16) 0))]

/-- One round of the SHA-256 compression function: state
`[a,b,c,d,e,f,g,h]`, round input `(k, w)`. -/
def compressStep (s : List Nat) (kw : Nat × Nat) : List Nat :=
  match s with
  | [a, b, c, d, e, f, g, h] =>
    let ch := (e &&& f) ^^^ ((e ^^^ 4294967295) &&& g)
    let t1 := add32 (add32 (add32 h (sigmaBig1 e)) (add32 ch kw.1)) kw.2
    let maj := (a &&& b) ^^^ (a &&& c) ^^^ (b &&& c)
    let t2 := add32 (sigmaBig0 a) maj
    [add32 t1 t2, a, b, c, add32 d t1, e, f, g]
  | s => s

/-- Process one 64-byte chunk against the running hash state. -/
def sha256Chunk (h : List Nat) (chunk : List Nat) : List Nat :=
  let w := iterateFn scheduleStep 48 (bytesToWords chunk)
  let s := (sha256K.zip w).foldl compressStep h
  List.zipWith add32 h s

/-- Split a list into `n` groups of 64. -/
def chunks64 : Nat → List Nat → List (List Nat)
  | 0, _ => []
  | n + 1, l => l.take 64 :: chunks64 n (l.drop 64)

/-- SHA-256 padding: `0x80`, zeros to 56 mod 64, then the bit length as a
64-bit big-endian integer. -/
def sha256Pad (msg : List Nat) : List Nat :=
  let len := msg.length
  msg ++ [128] ++ List.replicate ((119 - len % 64) % 64) 0 ++ toBytesBE 8 (len * 8)

/-- SHA-256 of a byte list, as 32 digest bytes. -/
def sha256 (msg : List Nat) : List Nat :=
  let padded := sha256Pad msg
  let final := (chunks64 (padded.length / 64) padded).foldl sha256Chunk sha256H0
  final.flatMap (toBytesBE 4)

/-- Lowercase hex digit. -/
def hexDigit (n : Nat) : Char :=
  match n with
  | 0 => '0' | 1 => '1' | 2 => '2' | 3 => '3' | 4 => '4' | 5 => '5' | 6 => '6' | 7 => '7'
  | 8 => '8' | 9 => '9' | 10 => 'a' | 11 => 'b' | 12 => 'c' | 13 => 'd' | 14 => 'e' | _ => 'f'

/-- A byte as two lowercase hex characters (`b.toString(16).padStart(2, '0')`). -/
def byteToHex (b : Nat) : String := String.mk [hexDigit (b / 16), hexDigit (b % 16)]

/-- `calculateBlockHash` (`src/utils.ts` lines 8–15): lowercase hex SHA-256
of the UTF-8 bytes of the decimal height concatenated with the transaction
ids in order, with no separator. -/
def calculateBlockHash (height : Int) (transactionIds : List String) : String :=
  let data := toString height ++ String.join transactionIds
  String.join ((sha256 (utf8Encode data)).map byteToHex)

/-! ## Persistent state (`createTables`, `src/index.ts` lines 9–30)

The `blocks` table (`height INTEGER PRIMARY KEY, id TEXT UNIQUE,
transaction_ids TEXT[]`) and the `utxos` table (`tx_id, output_index,
address, value NUMERIC(20,8), block_height, spent_tx_id` with primary key
`(tx_id, output_index)`) become lists of records in insertion order.  The
`id TEXT UNIQUE` constraint on `blocks` can only fire on a SHA-256
collision between hashed strings of distinct heights and is not modelled;
the `utxos` primary key is modelled (`insertUtxos`). -/

structure BlockRecord where
  height : Int
  id : String
  transaction_ids : List String
deriving DecidableEq, Repr

structure UtxoEntry where
  tx_id : String
  output_index : Nat
  address : String
  value : ℚ
  block_height : Int
  spent_tx_id : Option String
deriving DecidableEq, Repr

structure DB where
  blocks : List BlockRecord
  utxos : List UtxoEntry
deriving DecidableEq, Repr

def emptyDB : DB := ⟨[], []⟩

/-- Primary key of a UTXO row. -/
def utxoKey (u : UtxoEntry) : String × Nat := (u.tx_id, u.output_index)

/-- The `(txId, index)` reference an input names. -/
def inputKey (i : Input) : String × Nat := (i.txId, i.index)

/-- `getCurrentHeight` (`index.ts` lines 32–36): `SELECT MAX(height) FROM
blocks`, then the JavaScript truthiness coercion `maxHeight ?
Number(maxHeight) : 0` — `NULL` (empty table) and a literal `0` both map
to `0`. -/
def getCurrentHeight (db : DB) : Int :=
  match (db.blocks.map (·.height)).max? with
  | none => 0
  | some m => if m = 0 then 0 else m

/-! ## Block processing (`processBlock`, `index.ts` lines 38–109) -/

/-- Typed forms of the errors `processBlock` / `rollbackToHeight` throw.
The payloads carry the same data the thrown message strings interpolate. -/
inductive Err
  | invalidHeight (expected got : Int)
  | invalidHash (computed got : String)
  | missingUtxo (txId : String)
  | alreadySpent (txId : String) (ref : Input) (spender : String)
  | valueMismatch (txId : String) (inputSum outputSum : ℚ)
  | negativeTarget
  | duplicateKey
deriving DecidableEq, Repr

/-- A staged spend (`inputsToSpend` element, `index.ts` line 48). -/
structure Spend where
  txId : String
  index : Nat
  spenderId : String
deriving DecidableEq, Repr

/-- Whether input `i` references UTXO row `u` — the
`CONCAT(tx_id, '_', output_index) IN (...)` match of the lookup query
(`index.ts` lines 54–59).  Since `output_index` renders as an unsigned
decimal with no underscore, the concatenated string determines the pair,
so the string match is exactly the key match. -/
def refMatches (i : Input) (u : UtxoEntry) : Bool :=
  i.txId == u.tx_id && i.index == u.output_index

/-- The rows the input-lookup query returns for one transaction: every
persisted UTXO row referenced by some input, spent or not (`index.ts`
lines 55–59). -/
def lookupRows (utxos : List UtxoEntry) (tx : Transaction) : List UtxoEntry :=
  utxos.filter (fun u => tx.inputs.any (fun i => refMatches i u))

/-- The per-input loop of `processBlock` (`index.ts` lines 63–70): find
each input's row among the query results, reject a spent row, accumulate
the value sum and the staged spends, in input order. -/
def resolveInputs (rows : List UtxoEntry) (txId : String) :
    List Input → Except Err (ℚ × List Spend)
  | [] => .ok (0, [])
  | i :: rest =>
    match rows.find? (refMatches i) with
    | none => .error (.missingUtxo txId)
    | some u =>
      match u.spent_tx_id with
      | some spender => .error (.alreadySpent txId i spender)
      | none => do
        let (s, spends) ← resolveInputs rows txId rest
        .ok (qAdd (parseValue u.value) s, ⟨i.txId, i.index, txId⟩ :: spends)

/-- The new UTXO rows a transaction stages (`index.ts` lines 72–81): one
per output, keyed by the transaction id and the output's position, tagged
with the block height, value still unrounded (rounding to `NUMERIC(20,8)`
happens at the insert). -/
def stagedOutputs (height : Int) (tx : Transaction) : List UtxoEntry :=
  (List.range tx.outputs.length).zip tx.outputs |>.map
    (fun p => ⟨tx.id, p.1, p.2.address, p.2.value, height, none⟩)

/-- Declared output value sum of a transaction (`txOutputsValue`,
`index.ts` lines 72–73). -/
def outputSum (tx : Transaction) : ℚ := qSum (tx.outputs.map (fun o => parseValue o.value))

/-- One iteration of the per-transaction validation loop (`index.ts`
lines 50–85): resolve the inputs against the persisted UTXO set (row
count check, then per-input lookup and spent check), stage the outputs,
and check value conservation on the `toFixed(8)`-rounded totals —
skipped entirely when the transaction has no inputs. -/
def validateTx (utxos : List UtxoEntry) (height : Int) (tx : Transaction) :
    Except Err (List Spend × List UtxoEntry) := do
  let (inSum, spends) ←
    if tx.inputs.length > 0 then do
      let rows := lookupRows utxos tx
      if rows.length ≠ tx.inputs.length then
        .error (.missingUtxo tx.id)
      else
        resolveInputs rows tx.id tx.inputs
    else .ok ((0 : ℚ), ([] : List Spend))
  if tx.inputs.length > 0 ∧ round8 inSum ≠ round8 (outputSum tx) then
    .error (.valueMismatch tx.id inSum (outputSum tx))
  else
    .ok (spends, stagedOutputs height tx)

/-- The whole validation loop: transactions in declared order, all reads
against the same persisted UTXO snapshot (the staged spends and staged
outputs of earlier transactions of the block are not visible — they live
in the `inputsToSpend` / `newUtxos` arrays until after the loop). -/
def validateTxs (utxos : List UtxoEntry) (height : Int) :
    List Transaction → Except Err (List Spend × List UtxoEntry)
  | [] => .ok ([], [])
  | tx :: rest => do
    let (s, n) ← validateTx utxos height tx
    let (s2, n2) ← validateTxs utxos height rest
    .ok (s ++ s2, n ++ n2)

/-- The effect of one conditional spend update on one row (`index.ts`
lines 88–94): set `spent_tx_id` only on the row with the given key and
only if it is currently unspent; a row that is already spent is silently
left alone (the code never inspects the affected-row count). -/
def applySpend1 (s : Spend) (u : UtxoEntry) : UtxoEntry :=
  if u.tx_id == s.txId && u.output_index == s.index && u.spent_tx_id == none
  then { u with spent_tx_id := some s.spenderId } else u

/-- One conditional spend `UPDATE` over the table. -/
def applySpend (utxos : List UtxoEntry) (s : Spend) : List UtxoEntry :=
  utxos.map (applySpend1 s)

/-- The cumulative effect of the sequential spend loop on one row. -/
def spendFold (spends : List Spend) (u : UtxoEntry) : UtxoEntry :=
  spends.foldl (fun v s => applySpend1 s v) u

/-- The bulk insert of the staged outputs (`index.ts` lines 96–107):
fails on a `(tx_id, output_index)` primary-key collision, either with an
existing row or within the batch; on success the stored value is the
`NUMERIC(20, 8)` rounding of the declared one. -/
def insertUtxos (utxos newRows : List UtxoEntry) : Except Err (List UtxoEntry) :=
  if (newRows.map utxoKey).Nodup ∧ ∀ n ∈ newRows, ∀ u ∈ utxos, utxoKey u ≠ utxoKey n then
    .ok (utxos ++ newRows.map (fun u => { u with value := round8 u.value }))
  else .error .duplicateKey

/-- `processBlock` (`index.ts` lines 38–109) as a statement sequence: the
returned `DB` is the state the executed SQL statements left behind,
whether or not an error was raised — the surrounding transaction
(`BEGIN`/`COMMIT`/`ROLLBACK` in the route handler) is applied by
`acceptBlock` below.  Validation failures occur before any statement has
written; a primary-key collision on the UTXO insert occurs after the
block record insert and the spend updates. -/
def processBlockRaw (db : DB) (b : Block) : Option Err × DB :=
  let current := getCurrentHeight db
  if b.height ≠ current + 1 then
    (some (.invalidHeight (current + 1) b.height), db)
  else
    let txIds := b.transactions.map (·.id)
    let expected := calculateBlockHash b.height txIds
    if b.id ≠ expected then
      (some (.invalidHash expected b.id), db)
    else
      match validateTxs db.utxos b.height b.transactions with
      | .error e => (some e, db)
      | .ok (spends, newRows) =>
        let db1 : DB := { db with blocks := db.blocks ++ [⟨b.height, b.id, txIds⟩] }
        let utxos1 := spends.foldl applySpend db1.utxos
        match insertUtxos utxos1 newRows with
        | .error e => (some e, { db1 with utxos := utxos1 })
        | .ok utxos2 => (none, { db1 with utxos := utxos2 })

deriving instance DecidableEq for Except

/-- Block acceptance as the caller observes it: `processBlock` inside the
atomic unit — `.ok` is the committed state, `.error` means the unit was
rolled back. -/
def acceptBlock (db : DB) (b : Block) : Except Err DB :=
  match processBlockRaw db b with
  | (some e, _) => .error e
  | (none, db') => .ok db'

/-- The `POST /blocks` handler state transition (`index.ts` lines
138–158): `BEGIN`, `processBlock`, `COMMIT` on success / `ROLLBACK` on
error — so the observable state after the call is the new state on
success and the original state on failure. -/
def postBlocks (db : DB) (b : Block) : DB × Option Err :=
  match processBlockRaw db b with
  | (some e, _) => (db, some e)
  | (none, db') => (db', none)

/-- Fold of `acceptBlock` over a block sequence. -/
def acceptChain (db : DB) : List Block → Except Err DB
  | [] => .ok db
  | b :: rest => do acceptChain (← acceptBlock db b) rest

/-! ## Rollback (`rollbackToHeight`, `index.ts` lines 111–136) -/

/-- The effect of the un-spend update on one row (`index.ts` lines
120–124): clear `spent_tx_id` if the spender is one of the given
transaction ids. -/
def unspend1 (txIds : List String) (u : UtxoEntry) : UtxoEntry :=
  if (match u.spent_tx_id with | some s => txIds.contains s | none => false)
  then { u with spent_tx_id := none } else u

/-- The un-spend `UPDATE` over the table. -/
def unspendBy (txIds : List String) (utxos : List UtxoEntry) : List UtxoEntry :=
  utxos.map (unspend1 txIds)

/-- The mutating tail of `rollbackToHeight` (`index.ts` lines 115–135):
collect the transaction ids of blocks above the target, clear `spent_tx_id`
where the spender is one of them, delete UTXO rows created above the
target, delete the block records above the target, and return the deleted
heights (in table order). -/
def rollbackCore (db : DB) (target : Int) : List Int × DB :=
  let removedBlocks := db.blocks.filter (fun r => decide (target < r.height))
  let txIds := removedBlocks.flatMap (·.transaction_ids)
  let utxos1 := unspendBy txIds db.utxos
  let utxos2 := utxos1.filter (fun u => !decide (target < u.block_height))
  let kept := db.blocks.filter (fun r => !decide (target < r.height))
  (removedBlocks.map (·.height), { blocks := kept, utxos := utxos2 })

/-- `rollbackToHeight` (`index.ts` lines 111–136).  Note the branch
order of the source: the `targetHeight >= currentHeight` no-op check runs
before the negativity check, and the only error is raised before any
statement has written, so the raw and the transaction-wrapped semantics
coincide. -/
def rollbackToHeight (db : DB) (target : Int) : Except Err (List Int × DB) :=
  let current := getCurrentHeight db
  if target ≥ current then .ok ([], db)
  else if target < 0 then .error .negativeTarget
  else .ok (rollbackCore db target)

/-- The `POST /rollback` handler state transition (`index.ts` lines
176–201): commit on success, roll the unit back on error. -/
def postRollback (db : DB) (target : Int) : DB × Option Err :=
  match rollbackToHeight db target with
  | .error e => (db, some e)
  | .ok (_, db') => (db', none)

/-! ## Balance (`GET /balance/:address`, `index.ts` lines 160–174) -/

/-- `COALESCE(SUM(value), 0)` over rows with the given address and
`spent_tx_id IS NULL`, read through `parseValue`. -/
def getBalance (db : DB) (address : String) : ℚ :=
  parseValue (qSum ((db.utxos.filter
    (fun u => u.address == address && u.spent_tx_id == none)).map (·.value)))

/-! ## Reachable states and the structural invariant -/

/-- All transaction ids recorded in a list of block records, in order. -/
def allTxIds (rs : List BlockRecord) : List String := rs.flatMap (·.transaction_ids)

/-- All transaction ids declared by a list of submitted blocks, in order. -/
def chainTxIds (bs : List Block) : List String :=
  bs.flatMap (fun b => b.transactions.map (·.id))

/-- The structural invariant of every state reachable from the empty
database: block heights are exactly `1..n` in order, UTXO rows carry
creation heights in `1..n`, UTXO keys are unique (the table's primary
key), and every recorded spender is a transaction id of some recorded
block. -/
structure WF (db : DB) : Prop where
  heights : db.blocks.map (·.height) = (List.range' 1 db.blocks.length).map Int.ofNat
  utxoLow : ∀ u ∈ db.utxos, 1 ≤ u.block_height
  utxoHigh : ∀ u ∈ db.utxos, u.block_height ≤ (db.blocks.length : Int)
  keysNodup : (db.utxos.map utxoKey).Nodup
  spenders : ∀ u ∈ db.utxos, ∀ s, u.spent_tx_id = some s → s ∈ allTxIds db.blocks

/-- States reachable from the empty database by successful block
acceptances and successful rollbacks. -/
inductive Reachable : DB → Prop
  | empty : Reachable emptyDB
  | accept {db b db'} : Reachable db → acceptBlock db b = .ok db' → Reachable db'
  | rollback {db t hs db'} : Reachable db → rollbackToHeight db t = .ok (hs, db') →
      Reachable db'

/-! ## Field-preservation lemmas for the row-level updates -/

theorem applySpend1_tx_id (s : Spend) (u : UtxoEntry) :
    (applySpend1 s u).tx_id = u.tx_id := by
  unfold applySpend1; split <;> rfl

theorem applySpend1_output_index (s : Spend) (u : UtxoEntry) :
    (applySpend1 s u).output_index = u.output_index := by
  unfold applySpend1; split <;> rfl

theorem applySpend1_block_height (s : Spend) (u : UtxoEntry) :
    (applySpend1 s u).block_height = u.block_height := by
  unfold applySpend1; split <;> rfl

theorem applySpend1_key (s : Spend) (u : UtxoEntry) :
    utxoKey (applySpend1 s u) = utxoKey u := by
  unfold utxoKey
  rw [applySpend1_tx_id, applySpend1_output_index]

theorem spendFold_key (spends : List Spend) (u : UtxoEntry) :
    utxoKey (spendFold spends u) = utxoKey u := by
  induction spends generalizing u with
  | nil => rfl
  | cons s rest ih => rw [spendFold, List.foldl_cons, ← spendFold, ih, applySpend1_key]

theorem spendFold_block_height (spends : List Spend) (u : UtxoEntry) :
    (spendFold spends u).block_height = u.block_height := by
  induction spends generalizing u with
  | nil => rfl
  | cons s rest ih =>
    rw [spendFold, List.foldl_cons, ← spendFold, ih, applySpend1_block_height]

/-- A row that is already spent is never touched by a conditional spend. -/
theorem applySpend1_of_spent {u : UtxoEntry} (s : Spend) (h : u.spent_tx_id ≠ none) :
    applySpend1 s u = u := by
  unfold applySpend1
  have : (u.spent_tx_id == none) = false := by
    cases hu : u.spent_tx_id with
    | none => exact absurd hu h
    | some a => rfl
  simp [this]

theorem spendFold_of_spent {u : UtxoEntry} (spends : List Spend)
    (h : u.spent_tx_id ≠ none) : spendFold spends u = u := by
  induction spends with
  | nil => rfl
  | cons s rest ih =>
    rw [spendFold, List.foldl_cons, ← spendFold, applySpend1_of_spent s h, ih]

/-- What the sequential spend loop can do to one row that starts unspent:
leave it alone, or mark it spent by the spender of one of the staged
spends. -/
theorem spendFold_of_unspent {u : UtxoEntry} (spends : List Spend)
    (h : u.spent_tx_id = none) :
    spendFold spends u = u ∨
      ∃ s ∈ spends, spendFold spends u = { u with spent_tx_id := some s.spenderId } := by
  induction spends with
  | nil => exact .inl rfl
  | cons s rest ih =>
    rw [spendFold, List.foldl_cons, ← spendFold]
    by_cases hc : applySpend1 s u = u
    · rw [hc]
      rcases ih with h1 | ⟨s', hs', h2⟩
      · exact .inl h1
      · exact .inr ⟨s', List.mem_cons_of_mem s hs', h2⟩
    · have hmark : applySpend1 s u = { u with spent_tx_id := some s.spenderId } := by
        unfold applySpend1 at hc ⊢
        split at hc
        · split
          · rfl
          · simp_all
        · exact absurd rfl hc
      refine .inr ⟨s, List.mem_cons_self s rest, ?_⟩
      rw [hmark, spendFold_of_spent rest (by simp)]

/-- The sequential spend loop over the whole table is the per-row
cumulative effect mapped over the table. -/
theorem foldl_applySpend (spends : List Spend) (utxos : List UtxoEntry) :
    spends.foldl applySpend utxos = utxos.map (spendFold spends) := by
  induction spends generalizing utxos with
  | nil =>
    have h : ∀ u : UtxoEntry, spendFold [] u = u := fun u => rfl
    simp [List.foldl_nil, List.map_congr_left (fun u _ => h u)]
  | cons s rest ih =>
    rw [List.foldl_cons, ih, applySpend, List.map_map]
    rfl

theorem unspend1_block_height (txIds : List String) (u : UtxoEntry) :
    (unspend1 txIds u).block_height = u.block_height := by
  unfold unspend1; split <;> rfl

theorem unspend1_key (txIds : List String) (u : UtxoEntry) :
    utxoKey (unspend1 txIds u) = utxoKey u := by
  unfold unspend1 utxoKey; split <;> rfl

theorem unspend1_nil (u : UtxoEntry) : unspend1 [] u = u := by
  unfold unspend1
  cases h : u.spent_tx_id <;> simp [h]

/-- A row `unspend1` leaves spent was spent by an id outside the cleared
set already before the update. -/
theorem unspend1_spent_inv {txIds : List String} {u : UtxoEntry} {s : String}
    (h : (unspend1 txIds u).spent_tx_id = some s) :
    u.spent_tx_id = some s ∧ s ∉ txIds := by
  unfold unspend1 at h
  split at h
  · simp at h
  · next hcond =>
    refine ⟨h, fun hmem => hcond ?_⟩
    rw [h]
    exact List.elem_eq_true_of_mem hmem


/-! ## The current height of a well-formed state -/

theorem max?_concat (l : List Int) (x : Int) :
    (l ++ [x]).max? = some (match l.max? with | none => x | some m => max m x) := by
  cases l with
  | nil => rfl
  | cons a as => simp [List.max?, List.foldl_append]

theorem max?_range'_ofNat (n : ℕ) :
    ((List.range' 1 n).map (Int.ofNat)).max? =
      if n = 0 then none else some (n : Int) := by
  induction n with
  | zero => rfl
  | succ n ih =>
    rw [List.range'_concat, List.map_append, List.map_singleton, max?_concat, ih]
    cases n with
    | zero => rfl
    | succ m =>
      simp only [Nat.succ_ne_zero, if_false, if_neg (Nat.succ_ne_zero (m + 1))]
      congr 1
      have h1 : (Int.ofNat (1 + 1 * (m + 1))) = ((m + 1 : ℕ) : Int) + 1 := by
        simp only [Int.ofNat_eq_natCast]
        push_cast
        ring
      rw [h1, max_eq_right (by omega)]
      push_cast
      ring

/-- In a well-formed state the current height is the number of recorded
blocks. -/
theorem current_of_WF {db : DB} (h : WF db) :
    getCurrentHeight db = (db.blocks.length : Int) := by
  unfold getCurrentHeight
  rw [h.heights, max?_range'_ofNat]
  by_cases hn : db.blocks.length = 0
  · simp [hn]
  · rw [if_neg hn]
    have hne : ((db.blocks.length : ℕ) : Int) ≠ 0 := by exact_mod_cast hn
    simp [hne]

/-! ## Facts about successful validation -/

theorem resolveInputs_ok_spenders {rows : List UtxoEntry} {txId : String}
    {inputs : List Input} {q : ℚ} {spends : List Spend}
    (h : resolveInputs rows txId inputs = .ok (q, spends)) :
    ∀ sp ∈ spends, sp.spenderId = txId := by
  induction inputs generalizing q spends with
  | nil =>
    simp only [resolveInputs] at h
    cases h
    intro sp hsp
    exact absurd hsp (List.not_mem_nil sp)
  | cons i rest ih =>
    simp only [resolveInputs] at h
    split at h
    · exact absurd h (by simp)
    · split at h
      · exact absurd h (by simp)
      · cases hrest : resolveInputs rows txId rest with
        | error e => rw [hrest] at h; exact absurd h (by simp [Bind.bind, Except.bind])
        | ok p =>
          obtain ⟨q', spends'⟩ := p
          rw [hrest] at h
          simp only [Bind.bind, Except.bind, Except.ok.injEq, Prod.mk.injEq] at h
          obtain ⟨-, hsp⟩ := h
          subst hsp
          intro sp hsp
          rcases List.mem_cons.mp hsp with h1 | h2
          · subst h1; rfl
          · exact ih hrest sp h2

theorem stagedOutputs_mem {height : Int} {tx : Transaction} {r : UtxoEntry}
    (h : r ∈ stagedOutputs height tx) :
    r.tx_id = tx.id ∧ r.block_height = height ∧ r.spent_tx_id = none := by
  unfold stagedOutputs at h
  obtain ⟨p, -, rfl⟩ := List.mem_map.mp h
  exact ⟨rfl, rfl, rfl⟩

theorem validateTx_ok_parts {utxos : List UtxoEntry} {height : Int}
    {tx : Transaction} {spends : List Spend} {rows : List UtxoEntry}
    (h : validateTx utxos height tx = .ok (spends, rows)) :
    (∀ sp ∈ spends, sp.spenderId = tx.id) ∧ rows = stagedOutputs height tx := by
  unfold validateTx at h
  by_cases hi : tx.inputs.length > 0
  · simp only [hi, if_true, if_pos] at h
    by_cases hlen : (lookupRows utxos tx).length ≠ tx.inputs.length
    · rw [if_pos hlen] at h
      exact absurd h (by simp [Bind.bind, Except.bind])
    · rw [if_neg hlen] at h
      cases hres : resolveInputs (lookupRows utxos tx) tx.id tx.inputs with
      | error e =>
        rw [hres] at h
        exact absurd h (by simp [Bind.bind, Except.bind])
      | ok p =>
        obtain ⟨q, sp⟩ := p
        rw [hres] at h
        simp only [Bind.bind, Except.bind] at h
        split at h
        · exact absurd h (by simp)
        · simp only [Except.ok.injEq, Prod.mk.injEq] at h
          obtain ⟨h1, h2⟩ := h
          subst h1; subst h2
          exact ⟨resolveInputs_ok_spenders hres, rfl⟩
  · rw [if_neg hi] at h
    simp only [Bind.bind, Except.bind] at h
    rw [if_neg (fun hc => hi hc.1)] at h
    simp only [Except.ok.injEq, Prod.mk.injEq] at h
    obtain ⟨h1, h2⟩ := h
    subst h1; subst h2
    exact ⟨fun sp hsp => absurd hsp (List.not_mem_nil sp), rfl⟩

theorem validateTxs_ok_parts {utxos : List UtxoEntry} {height : Int}
    {txs : List Transaction} {spends : List Spend} {rows : List UtxoEntry}
    (h : validateTxs utxos height txs = .ok (spends, rows)) :
    (∀ sp ∈ spends, sp.spenderId ∈ txs.map (·.id)) ∧
      (∀ r ∈ rows, r.block_height = height ∧ r.spent_tx_id = none ∧
        r.tx_id ∈ txs.map (·.id)) := by
  induction txs generalizing spends rows with
  | nil =>
    simp only [validateTxs, Except.ok.injEq, Prod.mk.injEq] at h
    obtain ⟨h1, h2⟩ := h
    subst h1; subst h2
    exact ⟨fun sp hsp => absurd hsp (List.not_mem_nil sp),
           fun r hr => absurd hr (List.not_mem_nil r)⟩
  | cons tx rest ih =>
    simp only [validateTxs] at h
    cases h1 : validateTx utxos height tx with
    | error e => rw [h1] at h; exact absurd h (by simp [Bind.bind, Except.bind])
    | ok p1 =>
      obtain ⟨s1, n1⟩ := p1
      rw [h1] at h
      cases h2 : validateTxs utxos height rest with
      | error e =>
        rw [h2] at h
        exact absurd h (by simp [Bind.bind, Except.bind])
      | ok p2 =>
        obtain ⟨s2, n2⟩ := p2
        rw [h2] at h
        simp only [Bind.bind, Except.bind, Except.ok.injEq, Prod.mk.injEq] at h
        obtain ⟨hs, hn⟩ := h
        subst hs; subst hn
        obtain ⟨hsp1, hrows1⟩ := validateTx_ok_parts h1
        obtain ⟨hsp2, hrows2⟩ := ih h2
        constructor
        · intro sp hsp
          rcases List.mem_append.mp hsp with hl | hr
          · rw [List.map_cons, hsp1 sp hl]
            exact List.mem_cons_self _ _
          · rw [List.map_cons]
            exact List.mem_cons_of_mem _ (hsp2 sp hr)
        · intro r hr
          rcases List.mem_append.mp hr with hl | hrr
          · obtain ⟨ht, hh, hsn⟩ := stagedOutputs_mem (hrows1 ▸ hl)
            exact ⟨hh, hsn, by rw [List.map_cons, ht]; exact List.mem_cons_self _ _⟩
          · obtain ⟨hh, hsn, ht⟩ := hrows2 r hrr
            exact ⟨hh, hsn, List.map_cons (·.id) tx rest ▸ List.mem_cons_of_mem _ ht⟩

/-! ## Shape of `processBlockRaw` outcomes -/

theorem acceptBlock_ok_iff {db : DB} {b : Block} {db' : DB} :
    acceptBlock db b = .ok db' ↔ processBlockRaw db b = (none, db') := by
  unfold acceptBlock
  cases hp : processBlockRaw db b with
  | mk e d =>
    cases e with
    | none => simp
    | some err => simp

theorem processBlockRaw_invalidHeight {db : DB} {b : Block}
    (h : b.height ≠ getCurrentHeight db + 1) :
    processBlockRaw db b =
      (some (.invalidHeight (getCurrentHeight db + 1) b.height), db) := by
  unfold processBlockRaw
  rw [if_pos h]

theorem processBlockRaw_invalidHash {db : DB} {b : Block}
    (h1 : b.height = getCurrentHeight db + 1)
    (h2 : b.id ≠ calculateBlockHash b.height (b.transactions.map (·.id))) :
    processBlockRaw db b =
      (some (.invalidHash (calculateBlockHash b.height (b.transactions.map (·.id))) b.id),
        db) := by
  unfold processBlockRaw
  rw [if_neg (fun hc => hc h1), if_pos h2]

theorem resolveInputs_error_kind {rows : List UtxoEntry} {txId : String}
    {inputs : List Input} {e : Err}
    (h : resolveInputs rows txId inputs = .error e) :
    (∃ t, e = .missingUtxo t) ∨ (∃ t i s, e = .alreadySpent t i s) := by
  induction inputs with
  | nil => exact absurd h (by simp [resolveInputs])
  | cons i rest ih =>
    simp only [resolveInputs] at h
    split at h
    · cases h; exact .inl ⟨txId, rfl⟩
    · split at h
      · cases h
        exact .inr ⟨txId, i, _, rfl⟩
      · cases hrest : resolveInputs rows txId rest with
        | error e' =>
          rw [hrest] at h
          simp only [Bind.bind, Except.bind, Except.error.injEq] at h
          subst h
          exact ih hrest
        | ok p =>
          rw [hrest] at h
          exact absurd h (by simp [Bind.bind, Except.bind])

theorem validateTx_error_kind {utxos : List UtxoEntry} {height : Int}
    {tx : Transaction} {e : Err}
    (h : validateTx utxos height tx = .error e) :
    (∃ t, e = .missingUtxo t) ∨ (∃ t i s, e = .alreadySpent t i s) ∨
      (∃ t a b, e = .valueMismatch t a b) := by
  unfold validateTx at h
  by_cases hi : tx.inputs.length > 0
  · rw [if_pos hi] at h
    by_cases hlen : (lookupRows utxos tx).length ≠ tx.inputs.length
    · rw [if_pos hlen] at h
      simp only [Bind.bind, Except.bind, Except.error.injEq] at h
      exact .inl ⟨tx.id, h.symm⟩
    · rw [if_neg hlen] at h
      cases hres : resolveInputs (lookupRows utxos tx) tx.id tx.inputs with
      | error e' =>
        rw [hres] at h
        simp only [Bind.bind, Except.bind, Except.error.injEq] at h
        rcases h ▸ resolveInputs_error_kind hres with h1 | h2
        · exact .inl h1
        · exact .inr (.inl h2)
      | ok p =>
        obtain ⟨q, sp⟩ := p
        rw [hres] at h
        simp only [Bind.bind, Except.bind] at h
        split at h
        · cases h
          exact .inr (.inr ⟨tx.id, q, outputSum tx, rfl⟩)
        · exact absurd h (by simp)
  · rw [if_neg hi] at h
    simp only [Bind.bind, Except.bind] at h
    rw [if_neg (fun hc => hi hc.1)] at h
    exact absurd h (by simp)

theorem validateTxs_error_kind {utxos : List UtxoEntry} {height : Int}
    {txs : List Transaction} {e : Err}
    (h : validateTxs utxos height txs = .error e) :
    (∃ t, e = .missingUtxo t) ∨ (∃ t i s, e = .alreadySpent t i s) ∨
      (∃ t a b, e = .valueMismatch t a b) := by
  induction txs with
  | nil => exact absurd h (by simp [validateTxs])
  | cons tx rest ih =>
    simp only [validateTxs] at h
    cases h1 : validateTx utxos height tx with
    | error e' =>
      rw [h1] at h
      simp only [Bind.bind, Except.bind, Except.error.injEq] at h
      exact h ▸ validateTx_error_kind h1
    | ok p1 =>
      obtain ⟨s1, n1⟩ := p1
      rw [h1] at h
      cases h2 : validateTxs utxos height rest with
      | error e' =>
        rw [h2] at h
        simp only [Bind.bind, Except.bind, Except.error.injEq] at h
        subst h
        exact ih h2
      | ok p2 =>
        rw [h2] at h
        exact absurd h (by simp [Bind.bind, Except.bind])

theorem processBlockRaw_ok_parts {db : DB} {b : Block} {db' : DB}
    (h : processBlockRaw db b = (none, db')) :
    b.height = getCurrentHeight db + 1 ∧
    b.id = calculateBlockHash b.height (b.transactions.map (·.id)) ∧
    ∃ spends newRows,
      validateTxs db.utxos b.height b.transactions = .ok (spends, newRows) ∧
      (newRows.map utxoKey).Nodup ∧
      (∀ n ∈ newRows, ∀ u ∈ spends.foldl applySpend db.utxos, utxoKey u ≠ utxoKey n) ∧
      db' = ⟨db.blocks ++ [⟨b.height, b.id, b.transactions.map (·.id)⟩],
             spends.foldl applySpend db.utxos ++
               newRows.map (fun u => { u with value := round8 u.value })⟩ := by
  unfold processBlockRaw at h
  by_cases h1 : b.height ≠ getCurrentHeight db + 1
  · rw [if_pos h1] at h
    exact absurd h (by simp)
  · rw [if_neg h1] at h
    push_neg at h1
    by_cases h2 : b.id ≠ calculateBlockHash b.height (b.transactions.map (·.id))
    · rw [if_pos h2] at h
      exact absurd h (by simp)
    · rw [if_neg h2] at h
      push_neg at h2
      refine ⟨h1, h2, ?_⟩
      cases hv : validateTxs db.utxos b.height b.transactions with
      | error e =>
        rw [hv] at h
        exact absurd h (by simp)
      | ok p =>
        obtain ⟨spends, newRows⟩ := p
        rw [hv] at h
        simp only [insertUtxos] at h
        split at h
        · exact absurd h (by simp)
        · next utxos2 heq =>
          split at heq
          · next hcond =>
            injection heq with heq2
            simp only [Prod.mk.injEq, true_and] at h
            subst heq2
            exact ⟨spends, newRows, rfl, hcond.1, hcond.2, h.symm⟩
          · exact absurd heq (by simp)

/-! ## The invariant is preserved by block acceptance -/

theorem allTxIds_append (rs ss : List BlockRecord) :
    allTxIds (rs ++ ss) = allTxIds rs ++ allTxIds ss := by
  unfold allTxIds
  rw [List.flatMap_append]

theorem chainTxIds_append (bs cs : List Block) :
    chainTxIds (bs ++ cs) = chainTxIds bs ++ chainTxIds cs := by
  unfold chainTxIds
  rw [List.flatMap_append]

theorem WF_accept {db : DB} {b : Block} {db' : DB} (hwf : WF db)
    (h : acceptBlock db b = .ok db') :
    WF db' ∧
      db'.blocks = db.blocks ++ [⟨b.height, b.id, b.transactions.map (·.id)⟩] := by
  obtain ⟨hh, hid, spends, newRows, hv, hnodup, hdisj, hdb⟩ :=
    processBlockRaw_ok_parts (acceptBlock_ok_iff.mp h)
  obtain ⟨hspenders, hrows⟩ := validateTxs_ok_parts hv
  have hcur := current_of_WF hwf
  have hbh : b.height = (db.blocks.length : Int) + 1 := by rw [hh, hcur]
  have hfold := foldl_applySpend spends db.utxos
  subst hdb
  refine ⟨⟨?_, ?_, ?_, ?_, ?_⟩, rfl⟩
  · dsimp only
    rw [List.map_append, hwf.heights, List.map_singleton, List.length_append,
      List.length_singleton, List.range'_concat, List.map_append, List.map_singleton]
    congr 2
    rw [hbh]
    simp only [Int.ofNat_eq_natCast]
    push_cast
    ring
  · intro u hu
    dsimp only at hu
    rcases List.mem_append.mp hu with hl | hr
    · rw [hfold] at hl
      obtain ⟨u0, hu0, rfl⟩ := List.mem_map.mp hl
      rw [spendFold_block_height]
      exact hwf.utxoLow u0 hu0
    · obtain ⟨r, hr0, rfl⟩ := List.mem_map.mp hr
      show 1 ≤ r.block_height
      rw [(hrows r hr0).1, hbh]
      have : (0 : Int) ≤ (db.blocks.length : Int) := Int.ofNat_nonneg _
      omega
  · intro u hu
    dsimp only at hu ⊢
    rw [List.length_append, List.length_singleton]
    rcases List.mem_append.mp hu with hl | hr
    · rw [hfold] at hl
      obtain ⟨u0, hu0, rfl⟩ := List.mem_map.mp hl
      rw [spendFold_block_height]
      have := hwf.utxoHigh u0 hu0
      push_cast
      omega
    · obtain ⟨r, hr0, rfl⟩ := List.mem_map.mp hr
      show r.block_height ≤ _
      rw [(hrows r hr0).1, hbh]
      push_cast
      omega
  · dsimp only
    rw [List.map_append, hfold, List.map_map]
    have hA : db.utxos.map (utxoKey ∘ spendFold spends) = db.utxos.map utxoKey :=
      List.map_congr_left (fun u _ => spendFold_key spends u)
    have hB : (newRows.map (fun u => { u with value := round8 u.value })).map utxoKey =
        newRows.map utxoKey := by
      rw [List.map_map]
      exact List.map_congr_left (fun u _ => rfl)
    rw [hA, hB]
    refine List.Nodup.append hwf.keysNodup hnodup ?_
    intro k hk1 hk2
    obtain ⟨u0, hu0, rfl⟩ := List.mem_map.mp hk1
    obtain ⟨r, hr0, hkr⟩ := List.mem_map.mp hk2
    have hmem : spendFold spends u0 ∈ spends.foldl applySpend db.utxos := by
      rw [hfold]
      exact List.mem_map_of_mem _ hu0
    exact hdisj r hr0 (spendFold spends u0) hmem (by rw [spendFold_key, hkr])
  · intro u hu s hs
    dsimp only at hu ⊢
    rw [allTxIds_append]
    have htail : allTxIds [(⟨b.height, b.id, b.transactions.map (·.id)⟩ : BlockRecord)] =
        b.transactions.map (·.id) := by
      simp [allTxIds]
    rw [htail]
    rcases List.mem_append.mp hu with hl | hr
    · rw [hfold] at hl
      obtain ⟨u0, hu0, rfl⟩ := List.mem_map.mp hl
      cases hsp : u0.spent_tx_id with
      | some s0 =>
        rw [spendFold_of_spent spends (by rw [hsp]; exact fun hc => Option.noConfusion hc)] at hs
        rw [hsp] at hs
        cases hs
        exact List.mem_append_left _ (hwf.spenders u0 hu0 s hsp)
      | none =>
        rcases spendFold_of_unspent spends hsp with heq | ⟨sp, hspmem, heq⟩
        · rw [heq, hsp] at hs
          exact absurd hs (by simp)
        · rw [heq] at hs
          simp only [Option.some.injEq] at hs
          subst hs
          exact List.mem_append_right _ (hspenders sp hspmem)
    · obtain ⟨r, hr0, rfl⟩ := List.mem_map.mp hr
      have : r.spent_tx_id = none := (hrows r hr0).2.1
      simp only [this] at hs
      exact absurd hs (by simp)

/-- Along a successful chain of acceptances, the invariant is preserved and
the block index grows by exactly one record per block, recording the
declared transaction ids. -/
theorem acceptChain_ok_facts {cs : List Block} :
    ∀ {db db' : DB}, WF db → acceptChain db cs = .ok db' →
      WF db' ∧ ∃ extra : List BlockRecord,
        db'.blocks = db.blocks ++ extra ∧ extra.length = cs.length ∧
          allTxIds extra = chainTxIds cs := by
  induction cs with
  | nil =>
    intro db db' hwf h
    simp only [acceptChain, Except.ok.injEq] at h
    subst h
    exact ⟨hwf, [], by simp, rfl, rfl⟩
  | cons b rest ih =>
    intro db db' hwf h
    simp only [acceptChain] at h
    cases ha : acceptBlock db b with
    | error e =>
      rw [ha] at h
      exact absurd h (by simp [Bind.bind, Except.bind])
    | ok dbm =>
      rw [ha] at h
      simp only [Bind.bind, Except.bind] at h
      obtain ⟨hwfm, hblocksm⟩ := WF_accept hwf ha
      obtain ⟨hwf', extra', hb', hlen', hids'⟩ := ih hwfm h
      refine ⟨hwf', ⟨b.height, b.id, b.transactions.map (·.id)⟩ :: extra', ?_, ?_, ?_⟩
      · rw [hb', hblocksm, List.append_assoc]
        rfl
      · simp [hlen']
      · show allTxIds ([⟨b.height, b.id, b.transactions.map (·.id)⟩] ++ extra') = _
        rw [allTxIds_append, hids']
        have : allTxIds [(⟨b.height, b.id, b.transactions.map (·.id)⟩ : BlockRecord)] =
            b.transactions.map (·.id) := by simp [allTxIds]
        rw [this]
        rfl

/-! ## Rollback lemmas -/

theorem contains_eq_true_of_mem {l : List String} {a : String} (h : a ∈ l) :
    l.contains a = true :=
  List.elem_eq_true_of_mem h

theorem mem_of_contains_eq_true {l : List String} {a : String}
    (h : l.contains a = true) : a ∈ l :=
  List.mem_of_elem_eq_true h

theorem contains_eq_false_of_not_mem {l : List String} {a : String} (h : a ∉ l) :
    l.contains a = false := by
  cases hc : l.contains a
  · rfl
  · exact absurd (mem_of_contains_eq_true hc) h

/-- An unspent row is untouched by any un-spend update. -/
theorem unspend1_of_unspent {txIds : List String} {u : UtxoEntry}
    (h : u.spent_tx_id = none) : unspend1 txIds u = u := by
  unfold unspend1
  rw [h]
  simp

theorem spent_none_update {u : UtxoEntry} (h : u.spent_tx_id = none) :
    ({ u with spent_tx_id := none } : UtxoEntry) = u := by
  cases u
  simp_all

/-- The key cancellation fact behind rollback-inverts-acceptance, per row:
un-spending by the removed ids plus the new block's ids, after the new
block's spend loop ran, is the same as un-spending the original row by the
removed ids alone — provided every staged spender belongs to the new block
and no pre-existing spender does. -/
theorem unspend1_append_spendFold {txR bIds : List String} {spends : List Spend}
    {u : UtxoEntry}
    (hsp : ∀ sp ∈ spends, sp.spenderId ∈ bIds)
    (hold : ∀ s, u.spent_tx_id = some s → s ∉ bIds) :
    unspend1 (txR ++ bIds) (spendFold spends u) = unspend1 txR u := by
  cases hu : u.spent_tx_id with
  | some s =>
    rw [spendFold_of_spent spends (by rw [hu]; exact fun hc => Option.noConfusion hc)]
    unfold unspend1
    rw [hu]
    have hnotb : bIds.contains s = false :=
      contains_eq_false_of_not_mem (hold s hu)
    have hsplit : (txR ++ bIds).contains s = txR.contains s := by
      by_cases hmem : s ∈ txR
      · rw [contains_eq_true_of_mem (List.mem_append_left _ hmem),
          contains_eq_true_of_mem hmem]
      · rw [contains_eq_false_of_not_mem hmem]
        refine contains_eq_false_of_not_mem (fun hc => ?_)
        rcases List.mem_append.mp hc with h1 | h2
        · exact hmem h1
        · exact hold s hu h2
    dsimp only
    rw [hsplit]
  | none =>
    rcases spendFold_of_unspent spends hu with heq | ⟨sp, hspmem, heq⟩
    · rw [heq, unspend1_of_unspent hu, unspend1_of_unspent hu]
    · rw [heq, unspend1_of_unspent hu]
      unfold unspend1
      have : (txR ++ bIds).contains sp.spenderId = true :=
        contains_eq_true_of_mem (List.mem_append_right _ (hsp sp hspmem))
      simp only [this, if_true]
      exact spent_none_update hu

/-- When every recorded height and every creation height is at or below
the target, the mutating tail of rollback is the identity and removes no
block. -/
theorem rollbackCore_noop {db : DB} {t : Int}
    (hb : ∀ r ∈ db.blocks, r.height ≤ t)
    (hu : ∀ u ∈ db.utxos, u.block_height ≤ t) :
    rollbackCore db t = ([], db) := by
  unfold rollbackCore
  have h1 : db.blocks.filter (fun r => decide (t < r.height)) = [] := by
    rw [List.filter_eq_nil_iff]
    intro r hr
    simp only [decide_eq_true_eq, not_lt]
    exact hb r hr
  rw [h1]
  have h2 : db.utxos.map (unspend1 []) = db.utxos := by
    rw [List.map_congr_left (fun u _ => unspend1_nil u)]
    exact List.map_id db.utxos
  have h3 : db.utxos.filter (fun u => !decide (t < u.block_height)) = db.utxos := by
    rw [List.filter_eq_self]
    intro u humem
    simp only [Bool.not_eq_true', decide_eq_false_iff_not, not_lt]
    exact hu u humem
  have h4 : db.blocks.filter (fun r => !decide (t < r.height)) = db.blocks := by
    rw [List.filter_eq_self]
    intro r hrmem
    simp only [Bool.not_eq_true', decide_eq_false_iff_not, not_lt]
    exact hb r hrmem
  simp only [List.flatMap_nil, List.map_nil]
  unfold unspendBy
  rw [h2, h3, h4]

/-- Accepting one block on top of `db` and then running the rollback tail
to a target at or below `db`'s height removes exactly the rollback removals
of `db` plus the new block, and lands in the same state — the heart of
rollback-inverts-acceptance.  Freshness of the new block's transaction
ids against everything already recorded keeps the un-spend update from
touching rows spent by older blocks. -/
theorem rollbackCore_accept_step {db : DB} {b : Block} {db' : DB} {t : Int}
    (hwf : WF db) (h : acceptBlock db b = .ok db')
    (ht : t ≤ getCurrentHeight db)
    (hfresh : ∀ s ∈ allTxIds db.blocks, s ∉ b.transactions.map (·.id)) :
    rollbackCore db' t =
      ((rollbackCore db t).1 ++ [getCurrentHeight db + 1], (rollbackCore db t).2) := by
  obtain ⟨hh, hid, spends, newRows, hv, hnodup, hdisj, hdb⟩ :=
    processBlockRaw_ok_parts (acceptBlock_ok_iff.mp h)
  obtain ⟨hspenders, hrows⟩ := validateTxs_ok_parts hv
  have hcur := current_of_WF hwf
  have hfold := foldl_applySpend spends db.utxos
  have hbh : b.height = (db.blocks.length : Int) + 1 := by rw [hh, hcur]
  have htlt : t < b.height := by rw [hbh]; rw [hcur] at ht; omega
  subst hdb
  unfold rollbackCore
  dsimp only
  have h1 : (db.blocks ++ [(⟨b.height, b.id, b.transactions.map (fun (tx : Transaction) => tx.id)⟩ : BlockRecord)]).filter
        (fun (r : BlockRecord) => decide (t < r.height)) =
      db.blocks.filter (fun (r : BlockRecord) => decide (t < r.height)) ++
        [⟨b.height, b.id, b.transactions.map (fun (tx : Transaction) => tx.id)⟩] := by
    rw [List.filter_append]
    congr 1
    simp only [List.filter_cons, List.filter_nil, decide_eq_true_eq]
    rw [if_pos htlt]
  rw [h1]
  have h2 : ((db.blocks.filter (fun (r : BlockRecord) => decide (t < r.height)) ++
        [(⟨b.height, b.id, b.transactions.map (fun (tx : Transaction) => tx.id)⟩ : BlockRecord)]).flatMap
          (·.transaction_ids)) =
      (db.blocks.filter (fun (r : BlockRecord) => decide (t < r.height))).flatMap (fun (r : BlockRecord) => r.transaction_ids) ++
        b.transactions.map (fun (tx : Transaction) => tx.id) := by
    rw [List.flatMap_append]
    simp
  rw [h2]
  have h3 : (spends.foldl applySpend db.utxos ++
        newRows.map (fun (u : UtxoEntry) => { u with value := round8 u.value })).map
          (unspend1
            ((db.blocks.filter (fun (r : BlockRecord) => decide (t < r.height))).flatMap (fun (r : BlockRecord) => r.transaction_ids) ++
              b.transactions.map (fun (tx : Transaction) => tx.id))) =
      db.utxos.map (unspend1
          ((db.blocks.filter (fun (r : BlockRecord) => decide (t < r.height))).flatMap (fun (r : BlockRecord) => r.transaction_ids))) ++
        (newRows.map (fun (u : UtxoEntry) => { u with value := round8 u.value })).map
          (unspend1
            ((db.blocks.filter (fun (r : BlockRecord) => decide (t < r.height))).flatMap (fun (r : BlockRecord) => r.transaction_ids) ++
              b.transactions.map (fun (tx : Transaction) => tx.id))) := by
    rw [List.map_append]
    congr 1
    rw [hfold, List.map_map]
    refine List.map_congr_left (fun u hu => ?_)
    exact unspend1_append_spendFold (fun sp hsp => hspenders sp hsp)
      (fun s hs hmem => hfresh s (hwf.spenders u hu s hs) hmem)
  unfold unspendBy
  rw [h3]
  have h4 : ((newRows.map (fun (u : UtxoEntry) => { u with value := round8 u.value })).map
        (unspend1
          ((db.blocks.filter (fun (r : BlockRecord) => decide (t < r.height))).flatMap (fun (r : BlockRecord) => r.transaction_ids) ++
            b.transactions.map (fun (tx : Transaction) => tx.id)))).filter
          (fun u => !decide (t < u.block_height)) = [] := by
    rw [List.filter_eq_nil_iff]
    intro x hx
    obtain ⟨y, hy, rfl⟩ := List.mem_map.mp hx
    obtain ⟨r, hr, rfl⟩ := List.mem_map.mp hy
    have hhy : r.block_height = b.height := (hrows r hr).1
    simp only [unspend1_block_height, Bool.not_eq_true', decide_eq_false_iff_not, not_not]
    show t < _
    have : ({ r with value := round8 r.value } : UtxoEntry).block_height = r.block_height := rfl
    rw [this, hhy]
    exact htlt
  have h6 : (db.blocks ++ [(⟨b.height, b.id, b.transactions.map (fun (tx : Transaction) => tx.id)⟩ : BlockRecord)]).filter
        (fun (r : BlockRecord) => !decide (t < r.height)) =
      db.blocks.filter (fun (r : BlockRecord) => !decide (t < r.height)) := by
    rw [List.filter_append]
    have hone : ([(⟨b.height, b.id, b.transactions.map (fun (tx : Transaction) => tx.id)⟩ : BlockRecord)]).filter
        (fun (r : BlockRecord) => !decide (t < r.height)) = [] := by
      simp only [List.filter_cons, List.filter_nil, Bool.not_eq_true', decide_eq_false_iff_not]
      rw [if_neg (fun hc => hc htlt)]
    rw [hone, List.append_nil]
  rw [h6]
  rw [List.filter_append, h4, List.append_nil]
  rw [List.map_append, List.map_singleton]
  show (_ ++ [b.height], _) = (_ ++ [getCurrentHeight db + 1], _)
  rw [hbh, hcur]

theorem WF_empty : WF emptyDB := by
  refine ⟨rfl, ?_, ?_, List.nodup_nil, ?_⟩
  · intro u hu; exact absurd hu (List.not_mem_nil u)
  · intro u hu; exact absurd hu (List.not_mem_nil u)
  · intro u hu; exact absurd hu (List.not_mem_nil u)

theorem WF_block_height_le {db : DB} (hwf : WF db) :
    ∀ r ∈ db.blocks, r.height ≤ getCurrentHeight db := by
  intro r hr
  rw [current_of_WF hwf]
  have hmem : r.height ∈ db.blocks.map (·.height) := List.mem_map_of_mem _ hr
  rw [hwf.heights] at hmem
  obtain ⟨k, hk, hkeq⟩ := List.mem_map.mp hmem
  have hrange := List.mem_range'_1.mp hk
  rw [← hkeq]
  simp only [Int.ofNat_eq_natCast]
  omega

theorem acceptChain_append (db : DB) (xs ys : List Block) :
    acceptChain db (xs ++ ys) =
      (acceptChain db xs).bind (fun d => acceptChain d ys) := by
  induction xs generalizing db with
  | nil => rfl
  | cons x xs ih =>
    simp only [List.cons_append, acceptChain]
    cases ha : acceptBlock db x with
    | error e => simp [Bind.bind, Except.bind]
    | ok d => simp [Bind.bind, Except.bind, ih]

theorem acceptChain_singleton (db : DB) (b : Block) :
    acceptChain db [b] = acceptBlock db b := by
  unfold acceptChain
  cases acceptBlock db b with
  | error e => simp [Bind.bind, Except.bind]
  | ok d => simp [Bind.bind, Except.bind, acceptChain]

/-- Rolling the mutating tail of rollback back to the starting height,
after any successful run of block acceptances with globally fresh and
pairwise distinct transaction ids, removes exactly the accepted blocks'
heights in order and restores the starting state. -/
theorem rollbackCore_chain (cs : List Block) :
    ∀ db db' : DB, WF db →
      (∀ s ∈ chainTxIds cs, s ∉ allTxIds db.blocks) →
      (chainTxIds cs).Nodup →
      acceptChain db cs = .ok db' →
      rollbackCore db' (getCurrentHeight db) =
        ((List.range' (db.blocks.length + 1) cs.length).map Int.ofNat, db) := by
  induction cs using List.reverseRecOn with
  | nil =>
    intro db db' hwf hdisj hnodup h
    simp only [acceptChain, Except.ok.injEq] at h
    subst h
    have hnoop := rollbackCore_noop (WF_block_height_le hwf)
      (fun u hu => (current_of_WF hwf) ▸ hwf.utxoHigh u hu)
    rw [hnoop]
    rfl
  | append_singleton cs' b ih =>
    intro db db' hwf hdisj hnodup h
    rw [acceptChain_append] at h
    cases hm : acceptChain db cs' with
    | error e =>
      rw [hm] at h
      exact absurd h (by simp [Except.bind])
    | ok dbm =>
      rw [hm] at h
      simp only [Except.bind] at h
      rw [acceptChain_singleton] at h
      obtain ⟨hwfm, extra, hblocks, hlen, hids⟩ := acceptChain_ok_facts hwf hm
      have hcurm : getCurrentHeight dbm = (dbm.blocks.length : Int) := current_of_WF hwfm
      have hlenm : dbm.blocks.length = db.blocks.length + cs'.length := by
        rw [hblocks, List.length_append, hlen]
      have hbids : chainTxIds [b] = b.transactions.map (·.id) := by
        simp [chainTxIds]
      have hdisj' : ∀ s ∈ chainTxIds cs', s ∉ allTxIds db.blocks := fun s hs =>
        hdisj s (by rw [chainTxIds_append]; exact List.mem_append_left _ hs)
      have hnodup' : (chainTxIds cs').Nodup := by
        rw [chainTxIds_append] at hnodup
        exact hnodup.of_append_left
      have hih := ih db dbm hwf hdisj' hnodup' hm
      have hfresh : ∀ s ∈ allTxIds dbm.blocks, s ∉ b.transactions.map (·.id) := by
        intro s hs hmem
        rw [hblocks, allTxIds_append, hids] at hs
        rcases List.mem_append.mp hs with h1 | h2
        · exact hdisj s
            (by rw [chainTxIds_append, hbids]; exact List.mem_append_right _ hmem) h1
        · rw [chainTxIds_append, hbids] at hnodup
          exact (List.disjoint_of_nodup_append hnodup) h2 hmem
      have ht : getCurrentHeight db ≤ getCurrentHeight dbm := by
        rw [current_of_WF hwf, hcurm, hlenm]
        push_cast
        omega
      have hstep := rollbackCore_accept_step hwfm h ht hfresh
      rw [hstep, hih]
      have hlen2 : (cs' ++ [b]).length = cs'.length + 1 := by
        rw [List.length_append, List.length_singleton]
      rw [hlen2, List.range'_concat, List.map_append, List.map_singleton]
      have : getCurrentHeight dbm + 1 =
          Int.ofNat (db.blocks.length + 1 + 1 * cs'.length) := by
        rw [hcurm, hlenm]
        simp only [Int.ofNat_eq_natCast]
        push_cast
        ring
      rw [this]

/-! ## The invariant is preserved by rollback -/

theorem map_height_filter_not (t : Int) (rs : List BlockRecord) :
    (rs.filter (fun r => !decide (t < r.height))).map (·.height) =
      (rs.map (·.height)).filter (fun x => !decide (t < x)) := by
  induction rs with
  | nil => rfl
  | cons r rs ih =>
    cases hp : (!decide (t < r.height)) <;>
      simp [List.filter_cons, hp, ih]

theorem filter_heights_le {m n : ℕ} (hmn : m ≤ n) :
    ((List.range' 1 n).map Int.ofNat).filter (fun x => !decide ((m : Int) < x)) =
      (List.range' 1 m).map Int.ofNat := by
  have hsum : n - m + m = n := Nat.sub_add_cancel hmn
  have hsplit := List.range'_append 1 m (n - m) 1
  rw [one_mul, hsum] at hsplit
  rw [← hsplit, List.map_append, List.filter_append]
  have h1 : ((List.range' 1 m).map Int.ofNat).filter (fun x => !decide ((m : Int) < x)) =
      (List.range' 1 m).map Int.ofNat := by
    rw [List.filter_eq_self]
    intro a ha
    obtain ⟨k, hk, rfl⟩ := List.mem_map.mp ha
    have hr := List.mem_range'_1.mp hk
    simp only [Bool.not_eq_true', decide_eq_false_iff_not, not_lt, Int.ofNat_eq_natCast]
    exact_mod_cast Nat.lt_succ_iff.mp (by omega)
  have h2 : ((List.range' (1 + m) (n - m)).map Int.ofNat).filter
      (fun x => !decide ((m : Int) < x)) = [] := by
    rw [List.filter_eq_nil_iff]
    intro a ha
    obtain ⟨k, hk, rfl⟩ := List.mem_map.mp ha
    have hr := List.mem_range'_1.mp hk
    simp only [Bool.not_eq_true', decide_eq_false_iff_not, not_lt, not_le,
      Int.ofNat_eq_natCast]
    exact_mod_cast (by omega : m < k)
  rw [h1, h2, List.append_nil]

theorem nodup_keys_after_rollback (X : List String) (t : Int) {l : List UtxoEntry}
    (h : (l.map utxoKey).Nodup) :
    (((l.map (unspend1 X)).filter
        (fun u => !decide (t < u.block_height))).map utxoKey).Nodup := by
  have hs : (((l.map (unspend1 X)).filter
        (fun u => !decide (t < u.block_height))).map utxoKey).Sublist
      ((l.map (unspend1 X)).map utxoKey) :=
    List.Sublist.map utxoKey (List.filter_sublist _)
  have hk : (l.map (unspend1 X)).map utxoKey = l.map utxoKey := by
    rw [List.map_map]
    exact List.map_congr_left (fun u _ => unspend1_key X u)
  rw [hk] at hs
  exact h.sublist hs

theorem spenders_after_rollback {db : DB} {t : Int} (hwf : WF db) :
    ∀ u ∈ (db.utxos.map (unspend1
        ((db.blocks.filter (fun r => decide (t < r.height))).flatMap
          (·.transaction_ids)))).filter (fun u => !decide (t < u.block_height)),
      ∀ s, u.spent_tx_id = some s →
        s ∈ allTxIds (db.blocks.filter (fun r => !decide (t < r.height))) := by
  intro u hu s hs
  obtain ⟨hu1, -⟩ := List.mem_filter.mp hu
  obtain ⟨u0, hu0, rfl⟩ := List.mem_map.mp hu1
  obtain ⟨hs0, hnotX⟩ := unspend1_spent_inv hs
  have hmem := hwf.spenders u0 hu0 s hs0
  unfold allTxIds at hmem ⊢
  obtain ⟨r, hr, hsr⟩ := List.mem_flatMap.mp hmem
  cases hc : decide (t < r.height) with
  | true =>
    exact absurd (List.mem_flatMap.mpr ⟨r, List.mem_filter.mpr ⟨hr, hc⟩, hsr⟩) hnotX
  | false =>
    refine List.mem_flatMap.mpr ⟨r, List.mem_filter.mpr ⟨hr, ?_⟩, hsr⟩
    rw [hc]
    rfl

theorem WF_rollbackCore {db : DB} {t : Int} (hwf : WF db) (h0 : 0 ≤ t)
    (hlt : t < getCurrentHeight db) : WF (rollbackCore db t).2 := by
  have htm : t = (t.toNat : Int) := (Int.toNat_of_nonneg h0).symm
  have hcur := current_of_WF hwf
  have hmn : t.toNat ≤ db.blocks.length := by
    rw [htm, hcur] at hlt
    exact_mod_cast Int.le_of_lt hlt
  unfold rollbackCore
  dsimp only
  have hkept : (db.blocks.filter (fun r => !decide (t < r.height))).map (·.height) =
      (List.range' 1 t.toNat).map Int.ofNat := by
    rw [map_height_filter_not, hwf.heights, htm, filter_heights_le hmn]
    rw [Int.toNat_natCast]
  have hklen : (db.blocks.filter (fun r => !decide (t < r.height))).length = t.toNat := by
    have hc := congrArg List.length hkept
    rw [List.length_map, List.length_map, List.length_range'] at hc
    exact hc
  refine ⟨?_, ?_, ?_, ?_, ?_⟩
  · rw [hklen]
    exact hkept
  · intro u hu
    obtain ⟨hu1, -⟩ := List.mem_filter.mp hu
    obtain ⟨u0, hu0, rfl⟩ := List.mem_map.mp hu1
    rw [unspend1_block_height]
    exact hwf.utxoLow u0 hu0
  · intro u hu
    obtain ⟨hu1, hq⟩ := List.mem_filter.mp hu
    rw [hklen, ← htm]
    simp only [Bool.not_eq_true', decide_eq_false_iff_not, not_lt] at hq
    exact hq
  · exact nodup_keys_after_rollback _ t hwf.keysNodup
  · exact spenders_after_rollback hwf

/-- Every reachable state is well-formed. -/
theorem Reachable_WF {db : DB} (h : Reachable db) : WF db := by
  induction h with
  | empty => exact WF_empty
  | accept hr ha ih => exact (WF_accept ih ha).1
  | rollback hr ha ih =>
    rename_i db0 t hs db1
    unfold rollbackToHeight at ha
    by_cases h1 : t ≥ getCurrentHeight db0
    · rw [if_pos h1] at ha
      simp only [Except.ok.injEq, Prod.mk.injEq] at ha
      rw [← ha.2]
      exact ih
    · rw [if_neg h1] at ha
      by_cases h2 : t < 0
      · rw [if_pos h2] at ha
        exact absurd ha (by simp)
      · rw [if_neg h2] at ha
        simp only [Except.ok.injEq] at ha
        have hdb1 : db1 = (rollbackCore db0 t).2 := (congrArg Prod.snd ha).symm
        rw [hdb1]
        exact WF_rollbackCore ih (not_lt.mp h2) (not_le.mp h1)

/-! ## Concrete blocks used as evidence

`b1ten` and its accepted state `db1ten` reproduce the repository's own
first test block (`tx1`, one output of 10 to `addr1`); `dsBlock2` is a
height-2 block whose two transactions both spend `tx1:0`; `b1sat` and
`roundBlock2` exercise the 8-digit rounding of the conservation check. -/

def b1ten : Block :=
  ⟨"d1582b9e2cac15e170c39ef2e85855ffd7e6a820550a8ca16a2f016d366503dc", 1,
    [⟨"tx1", [], [⟨"addr1", 10⟩]⟩]⟩

def db1ten : DB :=
  ⟨[⟨1, "d1582b9e2cac15e170c39ef2e85855ffd7e6a820550a8ca16a2f016d366503dc", ["tx1"]⟩],
    [⟨"tx1", 0, "addr1", 10, 1, none⟩]⟩

def dsBlock2 : Block :=
  ⟨"0320e3988ecf063bf77cce50e6f0e0959e4dc6e371dac214f751f28a2232046a", 2,
    [⟨"txA", [⟨"tx1", 0⟩], [⟨"addr2", 10⟩]⟩,
     ⟨"txB", [⟨"tx1", 0⟩], [⟨"addr3", 10⟩]⟩]⟩

def b1sat : Block :=
  ⟨"d1582b9e2cac15e170c39ef2e85855ffd7e6a820550a8ca16a2f016d366503dc", 1,
    [⟨"tx1", [], [⟨"addr1", mkRat 1 100000000⟩]⟩]⟩

def roundBlock2 : Block :=
  ⟨"c4701d0bfd7179e1db6e33e947e6c718bbc4a1ae927300cd1e3bda91a930cba5", 2,
    [⟨"tx2", [⟨"tx1", 0⟩], [⟨"a2", mkRat 1 250000000⟩, ⟨"a3", mkRat 1 250000000⟩]⟩]⟩

/-- Once the height check has passed, no later failure of `processBlock`
reports `InvalidHeight`. -/
theorem processBlockRaw_no_invalidHeight {db : DB} {b : Block}
    (h1 : b.height = getCurrentHeight db + 1) :
    ∀ e g, (processBlockRaw db b).1 ≠ some (.invalidHeight e g) := by
  intro e g hc
  unfold processBlockRaw at hc
  rw [if_neg (fun hx => hx h1)] at hc
  by_cases h2 : b.id ≠ calculateBlockHash b.height (b.transactions.map (·.id))
  · rw [if_pos h2] at hc
    simp at hc
  · rw [if_neg h2] at hc
    cases hv : validateTxs db.utxos b.height b.transactions with
    | error e' =>
      rw [hv] at hc
      simp only [] at hc
      rcases validateTxs_error_kind hv with ⟨t', ht'⟩ | ⟨t', i', s', ht'⟩ | ⟨t', a', c', ht'⟩ <;>
        (subst ht'; simp at hc)
    | ok p =>
      obtain ⟨spends, newRows⟩ := p
      rw [hv] at hc
      simp only [insertUtxos] at hc
      split at hc
      · next heq =>
        split at heq <;> simp_all
      · next heq =>
        split at heq <;> simp_all

/-! ## Claim theorems -/

set_option maxRecDepth 10000 in
/-- Claim C7 — Block identity: `calculateBlockHash` is the lowercase-hex
SHA-256 digest of the UTF-8 encoding of the decimal height concatenated
with the transaction ids in their given order with no separator — checked
here against the repository's own test vectors `computeId(1, ["tx1"])`
and `computeId(2, ["tx2"])` — it is deterministic by construction (a pure
function of its arguments), and a block submitted at the correct height
whose declared id differs from this computation is rejected with
`InvalidHash`, the observable state staying untouched. -/
theorem blockIdentity_sha256_and_rejection :
    (calculateBlockHash 1 ["tx1"] =
        "d1582b9e2cac15e170c39ef2e85855ffd7e6a820550a8ca16a2f016d366503dc" ∧
      calculateBlockHash 2 ["tx2"] =
        "c4701d0bfd7179e1db6e33e947e6c718bbc4a1ae927300cd1e3bda91a930cba5") ∧
    ∀ (db : DB) (b : Block), b.height = getCurrentHeight db + 1 →
      b.id ≠ calculateBlockHash b.height (b.transactions.map (·.id)) →
      postBlocks db b =
        (db, some (.invalidHash
          (calculateBlockHash b.height (b.transactions.map (·.id))) b.id)) := by
  refine ⟨⟨by decide, by decide⟩, ?_⟩
  intro db b h1 h2
  unfold postBlocks
  rw [processBlockRaw_invalidHash h1 h2]

set_option maxRecDepth 10000 in
theorem blockIdentity_sha256_and_rejection_witness :
    postBlocks emptyDB ⟨"nothash", 1, [⟨"tx1", [], [⟨"addr1", 10⟩]⟩]⟩ =
      (emptyDB, some (.invalidHash (calculateBlockHash 1 ["tx1"]) "nothash")) :=
  blockIdentity_sha256_and_rejection.2 emptyDB
    ⟨"nothash", 1, [⟨"tx1", [], [⟨"addr1", 10⟩]⟩]⟩ (by decide) (by decide)

set_option maxRecDepth 10000 in
/-- Claim C6 — Strict successor acceptance: `acceptBlock` fails with
`InvalidHeight` exactly when the submitted height differs from
`currentHeight + 1`, and every successfully accepted block sits at
exactly `currentHeight + 1` — no out-of-order acceptance, no gaps. -/
theorem invalidHeight_iff_not_successor :
    ∀ (db : DB) (b : Block),
      ((∃ e g, acceptBlock db b = .error (.invalidHeight e g)) ↔
        b.height ≠ getCurrentHeight db + 1) ∧
      (∀ db', acceptBlock db b = .ok db' → b.height = getCurrentHeight db + 1) := by
  intro db b
  refine ⟨⟨?_, ?_⟩, ?_⟩
  · rintro ⟨e, g, he⟩ hcontra
    unfold acceptBlock at he
    cases hp : processBlockRaw db b with
    | mk oe d =>
      rw [hp] at he
      cases oe with
      | none => exact absurd he (by simp)
      | some e' =>
        simp only [Except.error.injEq] at he
        subst he
        exact processBlockRaw_no_invalidHeight hcontra e g (by rw [hp])
  · intro hne
    refine ⟨getCurrentHeight db + 1, b.height, ?_⟩
    unfold acceptBlock
    rw [processBlockRaw_invalidHeight hne]
  · intro db' hok
    exact (processBlockRaw_ok_parts (acceptBlock_ok_iff.mp hok)).1

set_option maxRecDepth 10000 in
theorem invalidHeight_iff_not_successor_witness :
    b1ten.height = getCurrentHeight emptyDB + 1 :=
  (invalidHeight_iff_not_successor emptyDB b1ten).2 db1ten (by decide)

/-- Claim C4 — Atomicity on failure: whenever either endpoint reports an
error of any kind, the observable state after the call is exactly the
state before it: the enclosing `BEGIN`/`ROLLBACK` discards every
statement the aborted unit had executed (for block acceptance the block
record insert and the spend updates already ran when a duplicate-key
failure aborts the UTXO insert). -/
theorem atomicity_on_failure :
    (∀ (db : DB) (b : Block) (e : Err), (postBlocks db b).2 = some e →
        (postBlocks db b).1 = db) ∧
      (∀ (db : DB) (t : Int) (e : Err), (postRollback db t).2 = some e →
        (postRollback db t).1 = db) := by
  constructor
  · intro db b e h
    unfold postBlocks at h ⊢
    cases hp : processBlockRaw db b with
    | mk oe d =>
      cases oe with
      | none => rw [hp] at h; simp at h
      | some e' => rfl
  · intro db t e h
    unfold postRollback at h ⊢
    cases hr : rollbackToHeight db t with
    | error e' => rfl
    | ok p =>
      obtain ⟨hs, d⟩ := p
      rw [hr] at h
      simp at h

theorem atomicity_on_failure_witness :
    (postBlocks emptyDB ⟨"x", 5, []⟩).1 = emptyDB ∧
      (postRollback emptyDB (-1)).1 = emptyDB :=
  ⟨atomicity_on_failure.1 emptyDB ⟨"x", 5, []⟩ (.invalidHeight 1 5) (by decide),
   atomicity_on_failure.2 emptyDB (-1) .negativeTarget (by decide)⟩

/-- Claim C8 — Rollback target bounds: on any state with a non-negative
current height (true of every reachable state), a negative target fails
with `NegativeTarget`, and a target at or above the current height is a
no-op returning the empty removed-heights list and the unchanged state —
rollback never moves state forward. -/
theorem rollback_bounds :
    ∀ (db : DB) (t : Int), 0 ≤ getCurrentHeight db →
      (t < 0 → rollbackToHeight db t = .error .negativeTarget) ∧
      (0 ≤ t → getCurrentHeight db ≤ t → rollbackToHeight db t = .ok ([], db)) := by
  intro db t hcur
  constructor
  · intro hneg
    unfold rollbackToHeight
    rw [if_neg (by omega), if_pos hneg]
  · intro h0 hge
    unfold rollbackToHeight
    rw [if_pos (by omega)]

theorem rollback_bounds_witness :
    rollbackToHeight emptyDB (-1) = .error .negativeTarget ∧
      rollbackToHeight emptyDB 5 = .ok ([], emptyDB) :=
  ⟨(rollback_bounds emptyDB (-1) (by decide)).1 (by decide),
   (rollback_bounds emptyDB 5 (by decide)).2 (by decide) (by decide)⟩

/-- Claim C9 — Balance correctness: `getBalance` is exactly the sum of
`value` over the UTXO rows with the given address and a null spender —
stated as the pointwise if-then-else sum over the whole table — and an
address with no such rows gets `0`; the computation is total, so no
error is possible. -/
theorem balance_correct :
    ∀ (db : DB) (a : String),
      getBalance db a =
        (db.utxos.map
          (fun u => if u.address = a ∧ u.spent_tx_id = none then u.value else 0)).sum ∧
      ((∀ u ∈ db.utxos, ¬(u.address = a ∧ u.spent_tx_id = none)) →
        getBalance db a = 0) := by
  intro db a
  have hmain : ∀ l : List UtxoEntry,
      ((l.filter (fun u => u.address == a && u.spent_tx_id == none)).map (·.value)).sum =
        (l.map (fun u => if u.address = a ∧ u.spent_tx_id = none then u.value else 0)).sum := by
    intro l
    induction l with
    | nil => rfl
    | cons u l ih =>
      by_cases h1 : u.address = a
      · by_cases h2 : u.spent_tx_id = none
        · simp [List.filter_cons, h1, h2, ih]
        · simp [List.filter_cons, h1, h2, ih]
      · simp [List.filter_cons, h1, ih]
  constructor
  · unfold getBalance parseValue
    rw [qSum_eq]
    exact hmain db.utxos
  · intro h
    unfold getBalance parseValue
    have hnil : db.utxos.filter (fun u => u.address == a && u.spent_tx_id == none) = [] := by
      rw [List.filter_eq_nil_iff]
      intro u hu
      have hh := h u hu
      simp only [Bool.and_eq_true, beq_iff_eq]
      exact fun hc => hh ⟨hc.1, hc.2⟩
    rw [hnil]
    rfl

theorem balance_correct_witness : getBalance emptyDB "nobody" = 0 :=
  (balance_correct emptyDB "nobody").2 (fun u hu => absurd hu (List.not_mem_nil u))

/-- Claim C5 — Height contiguity: in every state reachable from the empty
database by successful acceptances and rollbacks, the recorded block
heights are exactly `1, …, n` in order for `n` the number of records (so
no gaps and no repeats), the current height equals `n`, and it is `0`
when no blocks are recorded.  Preservation by both operations is exactly
what the `Reachable` closure quantifies over. -/
theorem height_contiguity :
    ∀ db : DB, Reachable db →
      db.blocks.map (·.height) = (List.range' 1 db.blocks.length).map Int.ofNat ∧
      getCurrentHeight db = (db.blocks.length : Int) ∧
      (db.blocks = [] → getCurrentHeight db = 0) := by
  intro db h
  have hwf := Reachable_WF h
  refine ⟨hwf.heights, current_of_WF hwf, ?_⟩
  intro hnil
  rw [current_of_WF hwf, hnil]
  rfl

theorem height_contiguity_witness : getCurrentHeight emptyDB = 0 :=
  (height_contiguity emptyDB Reachable.empty).2.2 rfl

/-- Claim C2 — Rollback inverts acceptance: for every block sequence
accepted from the empty state whose declared transaction ids are pairwise
distinct (the spec's data-model requirement that a transaction id is
unique within the accepted chain) and every `K` below the chain length,
the rollback endpoint at target `K` succeeds, returns exactly the heights
`K+1, …, N` (ascending), and lands in precisely the state produced by
accepting only blocks `1..K`. -/
theorem rollback_inverts_acceptance :
    ∀ (bs : List Block) (K : ℕ) (dbN : DB),
      acceptChain emptyDB bs = .ok dbN →
      (chainTxIds bs).Nodup →
      K < bs.length →
      ∃ dbK, acceptChain emptyDB (bs.take K) = .ok dbK ∧
        rollbackToHeight dbN (K : Int) =
          .ok ((List.range' (K + 1) (bs.length - K)).map Int.ofNat, dbK) := by
  intro bs K dbN h hnodup hK
  rw [show bs = bs.take K ++ bs.drop K from (List.take_append_drop K bs).symm,
    acceptChain_append] at h
  cases hm : acceptChain emptyDB (bs.take K) with
  | error e =>
    rw [hm] at h
    exact absurd h (by simp [Except.bind])
  | ok dbK =>
    rw [hm] at h
    simp only [Except.bind] at h
    obtain ⟨hwfK, extra, hblocks, hlen, hids⟩ := acceptChain_ok_facts WF_empty hm
    have hE : emptyDB.blocks = [] := rfl
    have hlenK : dbK.blocks.length = K := by
      rw [hblocks, hE, List.nil_append, hlen, List.length_take]
      exact min_eq_left (le_of_lt hK)
    have hcurK : getCurrentHeight dbK = (K : Int) := by
      rw [current_of_WF hwfK, hlenK]
    have hnodup2 : (chainTxIds (bs.take K) ++ chainTxIds (bs.drop K)).Nodup := by
      rw [← chainTxIds_append, List.take_append_drop]
      exact hnodup
    have hallK : allTxIds dbK.blocks = chainTxIds (bs.take K) := by
      rw [hblocks, hE, List.nil_append, hids]
    have hdisj : ∀ s ∈ chainTxIds (bs.drop K), s ∉ allTxIds dbK.blocks := by
      intro s hs hmem
      rw [hallK] at hmem
      exact (List.disjoint_of_nodup_append hnodup2) hmem hs
    have hnodupD : (chainTxIds (bs.drop K)).Nodup := hnodup2.of_append_right
    have hcore := rollbackCore_chain (bs.drop K) dbK dbN hwfK hdisj hnodupD h
    have hcurN : getCurrentHeight dbN = (bs.length : Int) := by
      obtain ⟨hwfN, extraN, hbN, hlenN, -⟩ := acceptChain_ok_facts hwfK h
      rw [current_of_WF hwfN, hbN, List.length_append, hlenK, hlenN, List.length_drop]
      push_cast
      omega
    refine ⟨dbK, rfl, ?_⟩
    unfold rollbackToHeight
    rw [if_neg (by rw [hcurN]; omega), if_neg (by omega)]
    rw [hcurK, hlenK, List.length_drop] at hcore
    rw [hcore]

set_option maxRecDepth 10000 in
theorem rollback_inverts_acceptance_witness :
    ∃ dbK, acceptChain emptyDB ([b1ten].take 0) = .ok dbK ∧
      rollbackToHeight db1ten ((0 : ℕ) : Int) =
        .ok ((List.range' (0 + 1) ([b1ten].length - 0)).map Int.ofNat, dbK) :=
  rollback_inverts_acceptance [b1ten] 0 db1ten (by decide) (by decide) (by decide)

set_option maxRecDepth 10000 in
/-- Claim C1 — evidence against the claim: the block `dsBlock2` contains
two transactions whose inputs both reference the same unspent UTXO
`tx1:0`; the claim says such a block fails `AlreadySpent` and is
rejected, but the code validates every transaction against the
pre-block snapshot, applies the staged spends afterwards with a
conditional `UPDATE` whose affected-row count is never checked, and so
commits the block: the second spend silently affects zero rows, the row
records only the first spender (`txA`), and both value-10 outputs are
created — 20 units spendable where 10 existed. -/
theorem same_block_double_spend_committed :
    (postBlocks (postBlocks emptyDB b1ten).1 dsBlock2).2 = none ∧
    getBalance (postBlocks (postBlocks emptyDB b1ten).1 dsBlock2).1 "addr1" = 0 ∧
    getBalance (postBlocks (postBlocks emptyDB b1ten).1 dsBlock2).1 "addr2" = 10 ∧
    getBalance (postBlocks (postBlocks emptyDB b1ten).1 dsBlock2).1 "addr3" = 10 ∧
    ((postBlocks (postBlocks emptyDB b1ten).1 dsBlock2).1.utxos.filter
        (fun u => u.tx_id == "tx1")) =
      [⟨"tx1", 0, "addr1", 10, 1, some "txA"⟩] := by
  decide

/-- The conservation condition exactly as claim C3 words it: each
individual value independently rounded to 8 fractional digits before
summation, and the two totals compared at 8-digit precision. -/
def claimConservation (inputValues outputValues : List ℚ) : Prop :=
  round8 (qSum (inputValues.map round8)) = round8 (qSum (outputValues.map round8))

set_option maxRecDepth 10000 in
/-- Claim C3, counterexample — the claim's individually-rounded condition
fails on the transaction of `roundBlock2` (inputs resolve to the single
stored `0.00000001`; outputs are two declared values of `0.000000004`,
which round individually to `0`), so by the claim the block must be
rejected with `ValueMismatch`; the code instead sums the raw values
(`0.000000008`), rounds only the totals (both `0.00000001`), and accepts
the chain. -/
theorem conservation_rounding_counterexample :
    (acceptChain emptyDB [b1sat, roundBlock2]).isOk = true ∧
      ¬ claimConservation [mkRat 1 100000000]
          [mkRat 1 250000000, mkRat 1 250000000] := by
  constructor
  · decide
  · unfold claimConservation
    decide

/-- Claim C3, amended — Value conservation as the code implements it,
in both directions.  Success direction: a transaction with at least one
input that passes validation has its *unrounded* sum of resolved input
values equal to the *unrounded* sum of declared output values after each
total (not each individual value) is rounded to 8 fractional digits.
Skip direction: a transaction with no inputs always passes with no
staged spends — the conservation check is skipped by the
`inputs.length > 0` guard.  Failure direction: whenever the inputs do
resolve (row count matches and the per-input loop succeeds with total
`q`) but the rounded totals differ, validation fails with exactly
`ValueMismatch` naming the transaction and both totals. -/
theorem conservation_totals_rounded :
    (∀ (utxos : List UtxoEntry) (h : Int) (tx : Transaction) (spends : List Spend)
        (rows : List UtxoEntry),
      validateTx utxos h tx = .ok (spends, rows) → tx.inputs ≠ [] →
      ∃ q, resolveInputs (lookupRows utxos tx) tx.id tx.inputs = .ok (q, spends) ∧
        round8 q = round8 (outputSum tx)) ∧
    (∀ (utxos : List UtxoEntry) (h : Int) (tx : Transaction), tx.inputs = [] →
      validateTx utxos h tx = .ok ([], stagedOutputs h tx)) ∧
    (∀ (utxos : List UtxoEntry) (h : Int) (tx : Transaction) (q : ℚ)
        (spends : List Spend),
      tx.inputs.length > 0 →
      (lookupRows utxos tx).length = tx.inputs.length →
      resolveInputs (lookupRows utxos tx) tx.id tx.inputs = .ok (q, spends) →
      round8 q ≠ round8 (outputSum tx) →
      validateTx utxos h tx = .error (.valueMismatch tx.id q (outputSum tx))) := by
  refine ⟨?_, ?_, ?_⟩
  · intro utxos h tx spends rows hok hne
    have hlen : tx.inputs.length > 0 := List.length_pos.mpr hne
    unfold validateTx at hok
    rw [if_pos hlen] at hok
    by_cases hrows : (lookupRows utxos tx).length ≠ tx.inputs.length
    · rw [if_pos hrows] at hok
      exact absurd hok (by simp [Bind.bind, Except.bind])
    · rw [if_neg hrows] at hok
      cases hres : resolveInputs (lookupRows utxos tx) tx.id tx.inputs with
      | error e =>
        rw [hres] at hok
        exact absurd hok (by simp [Bind.bind, Except.bind])
      | ok p =>
        obtain ⟨q, sp⟩ := p
        rw [hres] at hok
        simp only [Bind.bind, Except.bind] at hok
        split at hok
        · exact absurd hok (by simp)
        · next hcond =>
          simp only [Except.ok.injEq, Prod.mk.injEq] at hok
          obtain ⟨h1, -⟩ := hok
          subst h1
          refine ⟨q, rfl, ?_⟩
          by_contra hne2
          exact hcond ⟨hlen, hne2⟩
  · intro utxos h tx hnil
    have hlen0 : ¬ tx.inputs.length > 0 := by simp [hnil]
    unfold validateTx
    rw [if_neg hlen0]
    simp only [Bind.bind, Except.bind]
    rw [if_neg (fun hc => hlen0 hc.1)]
  · intro utxos h tx q spends hlen hrows hres hne
    unfold validateTx
    rw [if_pos hlen, if_neg (fun hc => hc hrows), hres]
    simp only [Bind.bind, Except.bind]
    rw [if_pos ⟨hlen, hne⟩]

/-- The witness exercises all three directions on concrete data: a
resolving transaction whose rounded totals differ fails with
`ValueMismatch 5 vs 3`; a balanced resolving transaction passes with the
conserved total; a zero-input transaction passes unchecked. -/
theorem conservation_totals_rounded_witness :
    validateTx [⟨"t", 0, "a", 5, 1, none⟩] 7 ⟨"x", [⟨"t", 0⟩], [⟨"b", 3⟩]⟩ =
      .error (.valueMismatch "x" 5 (outputSum ⟨"x", [⟨"t", 0⟩], [⟨"b", 3⟩]⟩)) ∧
    (∃ q, resolveInputs
        (lookupRows [⟨"t", 0, "a", 5, 1, none⟩] ⟨"x", [⟨"t", 0⟩], [⟨"b", 5⟩]⟩)
        "x" [⟨"t", 0⟩] = .ok (q, [⟨"t", 0, "x"⟩]) ∧
      round8 q = round8 (outputSum ⟨"x", [⟨"t", 0⟩], [⟨"b", 5⟩]⟩)) ∧
    validateTx [] 5 ⟨"t", [], [⟨"a", 3⟩]⟩ =
      .ok ([], stagedOutputs 5 ⟨"t", [], [⟨"a", 3⟩]⟩) :=
  ⟨conservation_totals_rounded.2.2 [⟨"t", 0, "a", 5, 1, none⟩] 7
      ⟨"x", [⟨"t", 0⟩], [⟨"b", 3⟩]⟩ 5 [⟨"t", 0, "x"⟩]
      (by decide) (by decide) (by decide) (by decide),
   conservation_totals_rounded.1 [⟨"t", 0, "a", 5, 1, none⟩] 7
      ⟨"x", [⟨"t", 0⟩], [⟨"b", 5⟩]⟩ [⟨"t", 0, "x"⟩]
      (stagedOutputs 7 ⟨"x", [⟨"t", 0⟩], [⟨"b", 5⟩]⟩) (by decide) (by decide),
   conservation_totals_rounded.2.1 [] 5 ⟨"t", [], [⟨"a", 3⟩]⟩ rfl⟩

theorem refMatches_iff {i : Input} {u : UtxoEntry} :
    refMatches i u = true ↔ i.txId = u.tx_id ∧ i.index = u.output_index := by
  unfold refMatches
  simp [Bool.and_eq_true]

/-- The rows the lookup query returns have pairwise distinct keys (they
are table rows) all drawn from the referenced input keys. -/
theorem lookupRows_keys {utxos : List UtxoEntry} {tx : Transaction}
    (hnodup : (utxos.map utxoKey).Nodup) :
    ((lookupRows utxos tx).map utxoKey).Nodup ∧
      ∀ k ∈ (lookupRows utxos tx).map utxoKey, k ∈ tx.inputs.map inputKey := by
  constructor
  · exact hnodup.sublist (List.Sublist.map utxoKey (List.filter_sublist _))
  · intro k hk
    obtain ⟨u, hu, rfl⟩ := List.mem_map.mp hk
    obtain ⟨hu1, hany⟩ := List.mem_filter.mp hu
    obtain ⟨i, hi, hri⟩ := List.any_eq_true.mp hany
    obtain ⟨h1, h2⟩ := refMatches_iff.mp hri
    refine List.mem_map.mpr ⟨i, hi, ?_⟩
    unfold inputKey utxoKey
    rw [h1, h2]

/-- **C10** — Duplicate and same-block input references fail as
`MissingUtxo`: when a transaction's inputs repeat a `(txId, index)`
reference (even one that exists unspent in the table), or reference an
output of another transaction of the same submitted block whose ids are
fresh with respect to the persisted UTXO set, the lookup query returns
strictly fewer rows than there are inputs — inputs resolve only against
the persisted set — so the row-count check fails the transaction with
`MissingUtxo`. -/
theorem duplicate_or_intrablock_inputs_missingUtxo :
    ∀ (utxos : List UtxoEntry) (h : Int) (b : Block) (tx : Transaction),
      (utxos.map utxoKey).Nodup →
      (¬ (tx.inputs.map inputKey).Nodup ∨
        (∃ i ∈ tx.inputs, ∃ tx' ∈ b.transactions, i.txId = tx'.id ∧
          ∀ u ∈ utxos, u.tx_id ∉ b.transactions.map (·.id))) →
      (lookupRows utxos tx).length < tx.inputs.length ∧
        validateTx utxos h tx = .error (.missingUtxo tx.id) := by
  intro utxos h b tx hnodup hcase
  obtain ⟨hrnodup, hrmem⟩ := @lookupRows_keys utxos tx hnodup
  have hrowslen : (lookupRows utxos tx).length < tx.inputs.length := by
    classical
    have hlenkeys : (lookupRows utxos tx).length =
        ((lookupRows utxos tx).map utxoKey).length := (List.length_map _ _).symm
    have hcard : ((lookupRows utxos tx).map utxoKey).length =
        ((lookupRows utxos tx).map utxoKey).toFinset.card :=
      (List.toFinset_card_of_nodup hrnodup).symm
    rcases hcase with hdup | ⟨i, hi, tx', htx', hid, hfresh⟩
    · have hsub : ((lookupRows utxos tx).map utxoKey).toFinset ⊆
          (tx.inputs.map inputKey).toFinset := by
        intro k hk
        exact List.mem_toFinset.mpr (hrmem k (List.mem_toFinset.mp hk))
      have h1 : ((lookupRows utxos tx).map utxoKey).toFinset.card ≤
          (tx.inputs.map inputKey).toFinset.card := Finset.card_le_card hsub
      have h2 : (tx.inputs.map inputKey).toFinset.card <
          (tx.inputs.map inputKey).length := by
        rw [List.card_toFinset]
        have hd := List.dedup_sublist (tx.inputs.map inputKey)
        rcases lt_or_eq_of_le hd.length_le with hlt | heq
        · exact hlt
        · exact absurd (hd.eq_of_length heq ▸
            List.nodup_dedup (tx.inputs.map inputKey)) hdup
      have h3 : (tx.inputs.map inputKey).length = tx.inputs.length :=
        List.length_map _ _
      omega
    · have hnotin : ∀ k ∈ (lookupRows utxos tx).map utxoKey, k ≠ inputKey i := by
        intro k hk hkeq
        obtain ⟨u, hu, rfl⟩ := List.mem_map.mp hk
        have h1 : u.tx_id = i.txId := congrArg Prod.fst hkeq
        have hmm : u.tx_id ∈ b.transactions.map (·.id) := by
          rw [h1, hid]
          exact List.mem_map_of_mem _ htx'
        exact hfresh u (List.mem_of_mem_filter hu) hmm
      have hsub : ((lookupRows utxos tx).map utxoKey).toFinset ⊆
          (tx.inputs.map inputKey).toFinset.erase (inputKey i) := by
        intro k hk
        exact Finset.mem_erase.mpr ⟨hnotin k (List.mem_toFinset.mp hk),
          List.mem_toFinset.mpr (hrmem k (List.mem_toFinset.mp hk))⟩
      have hikey : inputKey i ∈ (tx.inputs.map inputKey).toFinset :=
        List.mem_toFinset.mpr (List.mem_map_of_mem inputKey hi)
      have h1 := Finset.card_le_card hsub
      rw [Finset.card_erase_of_mem hikey] at h1
      have hpos : 0 < (tx.inputs.map inputKey).toFinset.card :=
        Finset.card_pos.mpr ⟨inputKey i, hikey⟩
      have h2 : (tx.inputs.map inputKey).toFinset.card ≤ tx.inputs.length := by
        have := List.toFinset_card_le (tx.inputs.map inputKey)
        have h3 : (tx.inputs.map inputKey).length = tx.inputs.length :=
          List.length_map _ _
        omega
      omega
  refine ⟨hrowslen, ?_⟩
  have hlen : tx.inputs.length > 0 := by omega
  unfold validateTx
  rw [if_pos hlen, if_pos (Nat.ne_of_lt hrowslen)]
  simp [Bind.bind, Except.bind]

theorem duplicate_or_intrablock_inputs_missingUtxo_witness :
    (lookupRows [⟨"t", 0, "a", 5, 1, none⟩]
        ⟨"x", [⟨"t", 0⟩, ⟨"t", 0⟩], []⟩).length <
      (⟨"x", [⟨"t", 0⟩, ⟨"t", 0⟩], []⟩ : Transaction).inputs.length ∧
    validateTx [⟨"t", 0, "a", 5, 1, none⟩] 2 ⟨"x", [⟨"t", 0⟩, ⟨"t", 0⟩], []⟩ =
      .error (.missingUtxo "x") :=
  duplicate_or_intrablock_inputs_missingUtxo [⟨"t", 0, "a", 5, 1, none⟩] 2
    ⟨"bb", 1, []⟩ ⟨"x", [⟨"t", 0⟩, ⟨"t", 0⟩], []⟩ (by decide) (.inl (by decide))
